import Mathlib

/-!
# Verification of the generative-links sketch (sketch.js)

Shallow embedding of the grid builders, walk engine, leaf colorer and cycle
controller of `sketch.js`.  Conventions of the embedding:

* A JS node key is the string `"x,y"` for two numbers `x`, `y`; two keys are
  equal exactly when the number pairs are equal, so keys are modelled as
  `ℚ × ℚ`.
* Geometry uses `sqrt(3)` (triangular and hexagonal lattices).  All coordinate
  arithmetic of the sketch stays inside the ring `ℚ[√3]`, modelled exactly by
  the structure `Rt3` (value `a + b·√3`), so the embedding is executable.
  JS floating point is idealised as exact real arithmetic; comparisons and
  rounding are computed exactly in `ℚ[√3]`.
* A JS `Map` is an insertion-ordered association list (`mapSet` updates in
  place when the key is present, appends otherwise, like `Map.set`).
* The adjacency `Map` of the sketch (key → `Set` of neighbour keys) is
  modelled as a total function `K → Finset K`; the sketch only ever reads
  entries it has created, so the "absent entry" case is never observed.
* `random(collection)` (uniform choice) is modelled by universally
  quantifying over the chosen element, together with the hypothesis that the
  element belongs to the collection it is drawn from.
* Canvas rendering calls (`line`, `ellipse`) are recorded in `edges` / `dots`
  instrumentation lists of the walk state.
-/

set_option maxRecDepth 100000

namespace GenLinks

/-- Node keys: a JS key string `"x,y"` is identified with the number pair. -/
abbrev K : Type := ℚ × ℚ

/-- `Math.floor` on an exact rational: `⌊num/den⌋` via flooring integer
division (the denominator of a `ℚ` is positive). -/
def qfloor (q : ℚ) : ℤ := Int.fdiv q.num q.den

/-! ## Exact arithmetic in ℚ[√3] -/

/-- An element `a + b·√3` of the ring `ℚ[√3]`.  All coordinates computed by
the sketch (positions of the four grids, hexagon corners) lie in this ring,
so JS number arithmetic is embedded exactly. -/
structure Rt3 where
  a : ℚ
  b : ℚ
deriving DecidableEq, Repr

namespace Rt3

/-- Embed a rational number. -/
def ofQ (q : ℚ) : Rt3 := ⟨q, 0⟩

instance : Add Rt3 := ⟨fun x y => ⟨x.a + y.a, x.b + y.b⟩⟩
instance : Sub Rt3 := ⟨fun x y => ⟨x.a - y.a, x.b - y.b⟩⟩
instance : Neg Rt3 := ⟨fun x => ⟨-x.a, -x.b⟩⟩
instance : Mul Rt3 := ⟨fun x y => ⟨x.a * y.a + 3 * x.b * y.b, x.a * y.b + x.b * y.a⟩⟩

/-- `√3` itself. -/
def sqrt3 : Rt3 := ⟨0, 1⟩

/-- Multiplicative inverse in `ℚ[√3]`: `(a+b√3)⁻¹ = (a−b√3)/(a²−3b²)`. -/
def inv (x : Rt3) : Rt3 :=
  ⟨x.a / (x.a ^ 2 - 3 * x.b ^ 2), -x.b / (x.a ^ 2 - 3 * x.b ^ 2)⟩

instance : Div Rt3 := ⟨fun x y => x * inv y⟩

/-- `0 ≤ a + b·√3`, decided by sign analysis and comparing squares
(`√3` is irrational, so `a² = 3b²` only when `a = b = 0`). -/
def nonnegB (x : Rt3) : Bool :=
  if 0 ≤ x.b then
    if 0 ≤ x.a then true
    else decide (x.a ^ 2 ≤ 3 * x.b ^ 2)
  else
    decide (0 ≤ x.a) && decide (3 * x.b ^ 2 ≤ x.a ^ 2)

/-- `x ≤ y` in `ℚ[√3]` (JS `<=` on the exact values). -/
def leB (x y : Rt3) : Bool := nonnegB (y - x)

/-- `x < y` in `ℚ[√3]` (JS `<` on the exact values). -/
def ltB (x y : Rt3) : Bool := !(leB y x)

/-- `⌊b·√3⌋` for `0 ≤ b`, computed via `Nat.sqrt`:
`⌊√(3p²/q²)⌋ = ⌊√(3p²q²)⌋ / q²`. -/
def fl3Nat (b : ℚ) : ℤ :=
  ((Nat.sqrt (3 * b.num.toNat ^ 2 * b.den ^ 2) / b.den ^ 2 : ℕ) : ℤ)

/-- `⌊b·√3⌋` for any rational `b` (for `b < 0` the value `b·√3` is
irrational, so `⌊b·√3⌋ = −⌊−b·√3⌋ − 1`). -/
def fl3 (b : ℚ) : ℤ :=
  if 0 ≤ b then fl3Nat b else -fl3Nat (-b) - 1

/-- `⌊a + b·√3⌋`: the candidate `⌊a⌋ + ⌊b√3⌋` is at most the floor, and the
floor exceeds it by at most one; the exact comparison settles which. -/
def floorR (x : Rt3) : ℤ :=
  let c : ℤ := qfloor x.a + fl3 x.b
  if leB (ofQ ((c : ℚ) + 1)) x then c + 1 else c

/-- JS `Math.round` (round half toward `+∞`): `⌊x + 1/2⌋`. -/
def jsRound (x : Rt3) : ℤ := floorR (x + ofQ (1 / 2))

/-- `round(x*100)/100` of the sketch: rounding to 2 decimal places. -/
def round2 (x : Rt3) : ℚ := ((jsRound (x * ofQ 100) : ℚ)) / 100

end Rt3

open Rt3

/-- A stored position `{x, y}`. -/
abbrev Pt : Type := Rt3 × Rt3

/-! ## JS `Map` as an insertion-ordered association list -/

/-- `posMap` of the sketch: key → position, insertion ordered. -/
abbrev JsMap : Type := List (K × Pt)

/-- `Map.get`. -/
def mapGet : JsMap → K → Option Pt
  | [], _ => none
  | kv :: t, k => if kv.1 = k then some kv.2 else mapGet t k

/-- `Map.has`. -/
def mapHas (m : JsMap) (k : K) : Bool := (mapGet m k).isSome

/-- `Map.set`: update in place when present, append otherwise. -/
def mapSet : JsMap → K → Pt → JsMap
  | [], k, v => [(k, v)]
  | kv :: t, k, v => if kv.1 = k then (k, v) :: t else kv :: mapSet t k v

/-- `Map.keys()` in insertion order. -/
def mapKeys (m : JsMap) : List K := m.map Prod.fst

theorem mapGet_eq_none_iff (m : JsMap) (k : K) :
    mapGet m k = none ↔ k ∉ mapKeys m := by
  induction m with
  | nil => simp [mapGet, mapKeys]
  | cons kv t ih =>
    by_cases h : kv.1 = k <;> simp [mapGet, mapKeys, h, ih, Ne.symm, eq_comm]

theorem mapHas_iff (m : JsMap) (k : K) :
    mapHas m k = true ↔ k ∈ mapKeys m := by
  rw [mapHas, Option.isSome_iff_ne_none, ne_eq, mapGet_eq_none_iff]
  simp

theorem mapKeys_set (m : JsMap) (k : K) (v : Pt) (x : K) :
    x ∈ mapKeys (mapSet m k v) ↔ x ∈ mapKeys m ∨ x = k := by
  induction m with
  | nil => simp [mapSet, mapKeys, eq_comm]
  | cons kv t ih =>
    by_cases h : kv.1 = k
    · subst h
      simp [mapSet, mapKeys, eq_comm]
      tauto
    · simp only [mapSet, if_neg h, mapKeys, List.map_cons, List.mem_cons]
      rw [mapKeys] at ih
      tauto

theorem mapHas_set (m : JsMap) (k : K) (v : Pt) (x : K) :
    mapHas (mapSet m k v) x = true ↔ mapHas m x = true ∨ x = k := by
  simp [mapHas_iff, mapKeys_set]

theorem mem_mapSet (m : JsMap) (k : K) (v : Pt) (kv : K × Pt) :
    kv ∈ mapSet m k v → kv ∈ m ∨ kv = (k, v) := by
  induction m with
  | nil => simp [mapSet]
  | cons hd t ih =>
    intro hmem
    rw [mapSet] at hmem
    by_cases h : hd.1 = k
    · rw [if_pos h] at hmem
      rcases List.mem_cons.mp hmem with rfl | hkv
      · right; rfl
      · left; exact List.mem_cons_of_mem _ hkv
    · rw [if_neg h] at hmem
      rcases List.mem_cons.mp hmem with rfl | hkv
      · left; exact List.mem_cons_self _ _
      · rcases ih hkv with h2 | h2
        · left; exact List.mem_cons_of_mem _ h2
        · right; exact h2

theorem mapKeys_set_nodup (m : JsMap) (k : K) (v : Pt)
    (h : (mapKeys m).Nodup) : (mapKeys (mapSet m k v)).Nodup := by
  induction m with
  | nil => simp [mapSet, mapKeys]
  | cons kv t ih =>
    rw [mapKeys, List.map_cons, List.nodup_cons] at h
    by_cases hk : kv.1 = k
    · subst hk
      simpa [mapSet, mapKeys, List.nodup_cons] using h
    · rw [mapKeys, mapSet, if_neg hk, List.map_cons, List.nodup_cons]
      refine ⟨fun hmem => ?_, ih h.2⟩
      rw [show (mapSet t k v).map Prod.fst = mapKeys (mapSet t k v) from rfl] at hmem
      rcases (mapKeys_set t k v kv.1).mp hmem with h2 | h2
      · exact h.1 h2
      · exact hk h2

theorem mapGet_set_self (m : JsMap) (k : K) (v : Pt) :
    mapGet (mapSet m k v) k = some v := by
  induction m with
  | nil => simp [mapSet, mapGet]
  | cons kv t ih =>
    by_cases h : kv.1 = k <;> simp [mapSet, mapGet, h, ih]

theorem mapGet_set_ne (m : JsMap) (k : K) (v : Pt) (x : K) (h : x ≠ k) :
    mapGet (mapSet m k v) x = mapGet m x := by
  induction m with
  | nil => simp [mapSet, mapGet, Ne.symm h]
  | cons kv t ih =>
    rw [mapSet]
    by_cases hk : kv.1 = k
    · subst hk
      simp [mapGet, Ne.symm h]
    · rw [if_neg hk]
      simp only [mapGet]
      by_cases hx : kv.1 = x
      · rw [if_pos hx, if_pos hx]
      · rw [if_neg hx, if_neg hx, ih]

/-! ## Adjacency (`adj` map of the sketch) as a total function -/

/-- All adjacency entries start as `new Set()`. -/
def adjInit : K → Finset K := fun _ => ∅

/-- `adj.get(a).add(b)`. -/
def updAdd (adj : K → Finset K) (a b : K) : K → Finset K :=
  Function.update adj a (insert b (adj a))

theorem mem_updAdd (adj : K → Finset K) (a b c x : K) :
    x ∈ updAdd adj a b c ↔ (c = a ∧ (x = b ∨ x ∈ adj a)) ∨ (c ≠ a ∧ x ∈ adj c) := by
  unfold updAdd
  rw [Function.update_apply]
  by_cases h : c = a <;> simp [h]

theorem updAdd_apply_ne (adj : K → Finset K) (a b c : K) (h : c ≠ a) :
    updAdd adj a b c = adj c := by
  unfold updAdd
  rw [Function.update_apply, if_neg h]

/-- Intermediate builder state: the `posMap` and `adj` maps. -/
structure BuildSt where
  pm : JsMap
  adj : K → Finset K

/-- `adj.get(a).add(b); adj.get(b).add(a)`. -/
def adjAdd2 (s : BuildSt) (a b : K) : BuildSt :=
  { s with adj := updAdd (updAdd s.adj a b) b a }

/-! ## Constants of the sketch -/

def width : ℚ := 600
def height : ℚ := 600
def cellSize : ℚ := 20
def hexRadius : ℚ := 20
def dotColors : List String := ["#FF7F7F", "#7F9EFF", "#FFF97F"]

/-- `coordKey(a,b)` produces the key string `"a,b"`, i.e. the pair. -/
def coordKey (a b : ℤ) : K := ((a : ℚ), (b : ℚ))

/-- A completed graph: `posMap`, `adj` and the start key the builder returns. -/
structure BuiltGraph where
  posMap : JsMap
  adj : K → Finset K
  startKey : K

/-! ## Square grid builder -/

def cols : ℤ := qfloor (width / cellSize) + 1
def rows : ℤ := qfloor (height / cellSize) + 1

/-- Loop indices of `for (i = 1; i < n - 1; i++)`. -/
def innerRange (n : ℤ) : List ℤ :=
  (List.range (n - 2).toNat).map (fun t : ℕ => (t : ℤ) + 1)

/-- The (i, j) iteration order of the square builder's nested loops. -/
def squareCells : List (ℤ × ℤ) :=
  (innerRange cols).flatMap (fun i => (innerRange rows).map (fun j => (i, j)))

/-- Shared shape of the node-creation loops: walk the cells, keep those
passing the bounds guard, and `posMap.set(key, val)` each one. -/
def guardedBuild (cells : List (ℤ × ℤ)) (g : ℤ × ℤ → Bool)
    (val : ℤ × ℤ → Pt) : JsMap :=
  cells.foldl
    (fun m c => if g c then mapSet m (coordKey c.1 c.2) (val c) else m) []

def squarePosMap : JsMap :=
  guardedBuild squareCells (fun _ => true)
    (fun c => (ofQ ((c.1 : ℚ) * cellSize), ofQ ((c.2 : ℚ) * cellSize)))

/-- `[i+d[0], j+d[1]]` applied at the key level. -/
def shiftK (k : K) (d : ℚ × ℚ) : K := (k.1 + d.1, k.2 + d.2)

/-- The N/E/S/W offsets of the square builder. -/
def dirsSquare : List (ℚ × ℚ) := [(1, 0), (-1, 0), (0, 1), (0, -1)]

/-- Body of the linking loop for one key `k`: for every offset `d`, add the
neighbour `k + d` when it is stored in `posMap`. -/
def linkStep (pm : JsMap) (dirs : List (ℚ × ℚ)) (adj : K → Finset K)
    (k : K) : K → Finset K :=
  dirs.foldl
    (fun a2 d =>
      if mapHas pm (shiftK k d) then updAdd a2 k (shiftK k d) else a2)
    adj

/-- Linking loop shared by the square and triangular builders: for every key
of `posMap` and every offset `d`, add the neighbour when it is stored. -/
def linkDirs (dirs : List (ℚ × ℚ)) (pm : JsMap) : K → Finset K :=
  (mapKeys pm).foldl (linkStep pm dirs) adjInit

def buildSquareGraph : BuiltGraph :=
  { posMap := squarePosMap
    adj := linkDirs dirsSquare squarePosMap
    startKey := coordKey (qfloor ((cols : ℚ) / 2)) (qfloor ((rows : ℚ) / 2)) }

/-! ## Triangular grid builder -/

def TRI_DIRS : List (ℚ × ℚ) :=
  [(1, 0), (-1, 0), (0, 1), (0, -1), (1, -1), (-1, 1)]

def maxQt : ℤ := qfloor (width / cellSize) + 1
def maxRt : ℤ := qfloor (height / cellSize) + 1

/-- Loop indices of `for (q = -n; q <= n; q++)`. -/
def symRange (n : ℤ) : List ℤ :=
  (List.range (2 * n + 1).toNat).map (fun t : ℕ => (t : ℤ) - n)

def triCells : List (ℤ × ℤ) :=
  (symRange maxQt).flatMap (fun q => (symRange maxRt).map (fun r => (q, r)))

/-- `x = width/2 + cellSize*(q + r/2)` (a rational number). -/
def triX (q r : ℤ) : ℚ := width / 2 + cellSize * ((q : ℚ) + (r : ℚ) / 2)

/-- `y = height/2 + (sqrt(3)/2)*cellSize*r`. -/
def triY (r : ℤ) : Rt3 :=
  ofQ (height / 2) + (⟨0, 1 / 2⟩ : Rt3) * ofQ cellSize * ofQ (r : ℚ)

/-- The canvas-interior bounds check of the triangular builder. -/
def inBoundsTri (q r : ℤ) : Bool :=
  decide (cellSize ≤ triX q r) && decide (triX q r ≤ width - cellSize) &&
    leB (ofQ cellSize) (triY r) && leB (triY r) (ofQ (height - cellSize))

def triPosMap : JsMap :=
  guardedBuild triCells (fun c => inBoundsTri c.1 c.2)
    (fun c => (ofQ (triX c.1 c.2), triY c.2))

def buildTriGraph : BuiltGraph :=
  ⟨triPosMap, linkDirs TRI_DIRS triPosMap, coordKey 0 0⟩

/-! ## Characterisation of `guardedBuild` and `linkDirs` -/

theorem guardedBuild_keys_aux (g : ℤ × ℤ → Bool) (val : ℤ × ℤ → Pt)
    (cells : List (ℤ × ℤ)) :
    ∀ (m0 : JsMap) (x : K),
      x ∈ mapKeys (cells.foldl
        (fun m c => if g c then mapSet m (coordKey c.1 c.2) (val c) else m) m0) ↔
      x ∈ mapKeys m0 ∨ ∃ c ∈ cells, g c = true ∧ x = coordKey c.1 c.2 := by
  induction cells with
  | nil => simp
  | cons c rest ih =>
    intro m0 x
    rw [List.foldl_cons]
    by_cases hg : g c = true
    · rw [if_pos hg, ih, mapKeys_set]
      constructor
      · rintro ((h | rfl) | ⟨c2, hc2, hgc2, rfl⟩)
        · exact Or.inl h
        · exact Or.inr ⟨c, List.mem_cons_self _ _, hg, rfl⟩
        · exact Or.inr ⟨c2, List.mem_cons_of_mem _ hc2, hgc2, rfl⟩
      · rintro (h | ⟨c2, hc2, hgc2, rfl⟩)
        · exact Or.inl (Or.inl h)
        · rcases List.mem_cons.mp hc2 with rfl | hc2
          · exact Or.inl (Or.inr rfl)
          · exact Or.inr ⟨c2, hc2, hgc2, rfl⟩
    · rw [if_neg hg, ih]
      constructor
      · rintro (h | ⟨c2, hc2, hgc2, rfl⟩)
        · exact Or.inl h
        · exact Or.inr ⟨c2, List.mem_cons_of_mem _ hc2, hgc2, rfl⟩
      · rintro (h | ⟨c2, hc2, hgc2, rfl⟩)
        · exact Or.inl h
        · rcases List.mem_cons.mp hc2 with rfl | hc2
          · exact absurd hgc2 hg
          · exact Or.inr ⟨c2, hc2, hgc2, rfl⟩

theorem guardedBuild_keys (cells : List (ℤ × ℤ)) (g : ℤ × ℤ → Bool)
    (val : ℤ × ℤ → Pt) (x : K) :
    x ∈ mapKeys (guardedBuild cells g val) ↔
      ∃ c ∈ cells, g c = true ∧ x = coordKey c.1 c.2 := by
  rw [guardedBuild, guardedBuild_keys_aux]
  simp [mapKeys]

theorem guardedBuild_entries_aux (g : ℤ × ℤ → Bool) (val : ℤ × ℤ → Pt)
    (cells : List (ℤ × ℤ)) :
    ∀ (m0 : JsMap) (kv : K × Pt),
      kv ∈ cells.foldl
        (fun m c => if g c then mapSet m (coordKey c.1 c.2) (val c) else m) m0 →
      kv ∈ m0 ∨ ∃ c ∈ cells, g c = true ∧ kv = (coordKey c.1 c.2, val c) := by
  induction cells with
  | nil => simp
  | cons c rest ih =>
    intro m0 kv h
    rw [List.foldl_cons] at h
    by_cases hg : g c = true
    · rw [if_pos hg] at h
      rcases ih _ kv h with h2 | ⟨c2, hc2, hgc2, rfl⟩
      · rcases mem_mapSet _ _ _ _ h2 with h3 | rfl
        · exact Or.inl h3
        · exact Or.inr ⟨c, List.mem_cons_self _ _, hg, rfl⟩
      · exact Or.inr ⟨c2, List.mem_cons_of_mem _ hc2, hgc2, rfl⟩
    · rw [if_neg hg] at h
      rcases ih _ kv h with h2 | ⟨c2, hc2, hgc2, rfl⟩
      · exact Or.inl h2
      · exact Or.inr ⟨c2, List.mem_cons_of_mem _ hc2, hgc2, rfl⟩

theorem guardedBuild_entries (cells : List (ℤ × ℤ)) (g : ℤ × ℤ → Bool)
    (val : ℤ × ℤ → Pt) (kv : K × Pt) :
    kv ∈ guardedBuild cells g val →
      ∃ c ∈ cells, g c = true ∧ kv = (coordKey c.1 c.2, val c) := by
  intro h
  rcases guardedBuild_entries_aux g val cells [] kv h with h2 | h2
  · simp at h2
  · exact h2

theorem guardedBuild_nodup_aux (g : ℤ × ℤ → Bool) (val : ℤ × ℤ → Pt)
    (cells : List (ℤ × ℤ)) :
    ∀ (m0 : JsMap), (mapKeys m0).Nodup →
      (mapKeys (cells.foldl
        (fun m c => if g c then mapSet m (coordKey c.1 c.2) (val c) else m)
        m0)).Nodup := by
  induction cells with
  | nil => intro m0 h; exact h
  | cons c rest ih =>
    intro m0 h
    rw [List.foldl_cons]
    by_cases hg : g c = true
    · rw [if_pos hg]
      exact ih _ (mapKeys_set_nodup _ _ _ h)
    · rw [if_neg hg]
      exact ih _ h

theorem guardedBuild_nodup (cells : List (ℤ × ℤ)) (g : ℤ × ℤ → Bool)
    (val : ℤ × ℤ → Pt) : (mapKeys (guardedBuild cells g val)).Nodup := by
  exact guardedBuild_nodup_aux g val cells [] (by simp [mapKeys])

/-! ### Characterisation of the direction-linking loop -/

theorem linkStep_apply_ne (pm : JsMap) (dirs : List (ℚ × ℚ))
    (adj : K → Finset K) (k c : K) (h : c ≠ k) :
    linkStep pm dirs adj k c = adj c := by
  unfold linkStep
  induction dirs generalizing adj with
  | nil => rfl
  | cons d rest ih =>
    rw [List.foldl_cons]
    by_cases hg : mapHas pm (shiftK k d) = true
    · rw [if_pos hg, ih, updAdd_apply_ne _ _ _ _ h]
    · rw [if_neg hg, ih]

theorem mem_linkStep_self (pm : JsMap) (dirs : List (ℚ × ℚ))
    (adj : K → Finset K) (k x : K) :
    x ∈ linkStep pm dirs adj k k ↔
      x ∈ adj k ∨
        ∃ d ∈ dirs, mapHas pm (shiftK k d) = true ∧ x = shiftK k d := by
  unfold linkStep
  induction dirs generalizing adj with
  | nil => simp
  | cons d rest ih =>
    rw [List.foldl_cons]
    by_cases hg : mapHas pm (shiftK k d) = true
    · rw [if_pos hg, ih]
      unfold updAdd
      rw [Function.update_same]
      simp only [Finset.mem_insert, List.mem_cons]
      constructor
      · rintro ((rfl | hx) | ⟨d2, hd2, hh, rfl⟩)
        · exact Or.inr ⟨d, Or.inl rfl, hg, rfl⟩
        · exact Or.inl hx
        · exact Or.inr ⟨d2, Or.inr hd2, hh, rfl⟩
      · rintro (hx | ⟨d2, (rfl | hd2), hh, rfl⟩)
        · exact Or.inl (Or.inr hx)
        · exact Or.inl (Or.inl rfl)
        · exact Or.inr ⟨d2, hd2, hh, rfl⟩
    · rw [if_neg hg, ih]
      constructor
      · rintro (hx | ⟨d2, hd2, hh, rfl⟩)
        · exact Or.inl hx
        · exact Or.inr ⟨d2, List.mem_cons_of_mem _ hd2, hh, rfl⟩
      · rintro (hx | ⟨d2, hd2, hh, rfl⟩)
        · exact Or.inl hx
        · rcases List.mem_cons.mp hd2 with rfl | hd2
          · exact absurd hh hg
          · exact Or.inr ⟨d2, hd2, hh, rfl⟩

theorem mem_linkFold (pm : JsMap) (dirs : List (ℚ × ℚ)) :
    ∀ (keys : List K), keys.Nodup → ∀ (adj : K → Finset K) (a b : K),
      (b ∈ (keys.foldl (linkStep pm dirs) adj) a ↔
        (a ∈ keys ∧ (b ∈ adj a ∨
          ∃ d ∈ dirs, mapHas pm (shiftK a d) = true ∧ b = shiftK a d)) ∨
        (a ∉ keys ∧ b ∈ adj a)) := by
  intro keys
  induction keys with
  | nil => intro _ adj a b; simp
  | cons k rest ih =>
    intro hnd adj a b
    rw [List.nodup_cons] at hnd
    rw [List.foldl_cons]
    by_cases ha : a = k
    · subst ha
      rw [ih hnd.2]
      have hrest : a ∉ rest := hnd.1
      constructor
      · rintro (⟨hk, _⟩ | ⟨_, hmem⟩)
        · exact absurd hk hrest
        · rw [mem_linkStep_self] at hmem
          exact Or.inl ⟨List.mem_cons_self _ _, hmem⟩
      · rintro (⟨_, h2⟩ | ⟨hnot, _⟩)
        · exact Or.inr ⟨hrest, (mem_linkStep_self _ _ _ _ _).mpr h2⟩
        · exact absurd (List.mem_cons_self _ _) hnot
    · rw [ih hnd.2, linkStep_apply_ne pm dirs adj k a ha]
      simp only [List.mem_cons, ha, false_or]

/-- Full characterisation: `b` is a neighbour of `a` iff `a` is stored and
`b = a + d` for an offset `d` with `b` stored. -/
theorem mem_linkDirs (dirs : List (ℚ × ℚ)) (pm : JsMap)
    (hnd : (mapKeys pm).Nodup) (a b : K) :
    b ∈ linkDirs dirs pm a ↔
      a ∈ mapKeys pm ∧
        ∃ d ∈ dirs, mapHas pm (shiftK a d) = true ∧ b = shiftK a d := by
  unfold linkDirs
  rw [mem_linkFold pm dirs (mapKeys pm) hnd adjInit a b]
  simp [adjInit]

/-- The adjacency produced by the linking loop is symmetric whenever the
offset list is closed under negation. -/
theorem linkDirs_symm (dirs : List (ℚ × ℚ)) (pm : JsMap)
    (hnd : (mapKeys pm).Nodup)
    (hneg : ∀ d ∈ dirs, ((-d.1, -d.2) : ℚ × ℚ) ∈ dirs) (a b : K) :
    b ∈ linkDirs dirs pm a ↔ a ∈ linkDirs dirs pm b := by
  have main : ∀ x y : K, y ∈ linkDirs dirs pm x → x ∈ linkDirs dirs pm y := by
    intro x y hxy
    rw [mem_linkDirs dirs pm hnd] at hxy ⊢
    rcases hxy with ⟨hx, d, hd, hhas, rfl⟩
    refine ⟨(mapHas_iff pm _).mp hhas, (-d.1, -d.2), hneg d hd, ?_, ?_⟩
    · have : shiftK (shiftK x d) (-d.1, -d.2) = x := by
        unfold shiftK
        exact Prod.ext (by ring) (by ring)
      rw [this]
      exact (mapHas_iff pm x).mpr hx
    · unfold shiftK
      exact (Prod.ext (by ring) (by ring)).symm
  exact ⟨fun h => main a b h, fun h => main b a h⟩

/-! ## Hexagon-corners builder -/

def wHex : Rt3 := sqrt3 * ofQ hexRadius
def hHex : ℚ := 3 / 2 * hexRadius
def maxQh : ℤ := floorR (ofQ width / wHex) + 2
def maxRh : ℤ := qfloor (height / hHex) + 2

/-- Exact value of `cos(PI/6 + PI/3*i)` for `i = 0..5`. -/
def hexCos : ℕ → Rt3
  | 0 => ⟨0, 1 / 2⟩
  | 1 => ⟨0, 0⟩
  | 2 => ⟨0, -(1 / 2)⟩
  | 3 => ⟨0, -(1 / 2)⟩
  | 4 => ⟨0, 0⟩
  | _ => ⟨0, 1 / 2⟩

/-- Exact value of `sin(PI/6 + PI/3*i)` for `i = 0..5`. -/
def hexSin : ℕ → Rt3
  | 0 => ⟨1 / 2, 0⟩
  | 1 => ⟨1, 0⟩
  | 2 => ⟨1 / 2, 0⟩
  | 3 => ⟨-(1 / 2), 0⟩
  | 4 => ⟨-1, 0⟩
  | _ => ⟨-(1 / 2), 0⟩

/-- `cx = width/2 + wHex*(q + r/2)`. -/
def hexCx (q r : ℤ) : Rt3 :=
  ofQ (width / 2) + wHex * ofQ ((q : ℚ) + (r : ℚ) / 2)

/-- `cy = height/2 + hHex*r`. -/
def hexCy (r : ℤ) : Rt3 := ofQ (height / 2) + ofQ hHex * ofQ (r : ℚ)

/-- The in-bounds test of the hexagon builder. -/
def inBoundsHex (q r : ℤ) : Bool :=
  leB (ofQ 0) (hexCx q r - ofQ hexRadius) &&
    leB (hexCx q r + ofQ hexRadius) (ofQ width) &&
    leB (ofQ 0) (hexCy r - ofQ hexRadius) &&
    leB (hexCy r + ofQ hexRadius) (ofQ height)

/-- Exact coordinates of corner `i` of the hexagon centred at cell `(q,r)`. -/
def hexCornerPt (q r : ℤ) (i : ℕ) : Pt :=
  (hexCx q r + ofQ hexRadius * hexCos i, hexCy r + ofQ hexRadius * hexSin i)

/-- The key of corner `i`: both coordinates rounded to 2 decimal places. -/
def hexCornerKey (q r : ℤ) (i : ℕ) : K :=
  (round2 (hexCornerPt q r i).1, round2 (hexCornerPt q r i).2)

/-- `if (!posMap.has(key)) { posMap.set(key, {x:xR, y:yR}); adj.set(key, new Set()); }` -/
def addCorner (s : BuildSt) (key : K) : BuildSt :=
  if mapHas s.pm key then s
  else ⟨mapSet s.pm key (ofQ key.1, ofQ key.2), Function.update s.adj key ∅⟩

/-- Process one lattice cell `(q,r)`: when the hexagon is in bounds, store
its six (deduplicated) corners and link them in a cycle. -/
def addHexCell (s : BuildSt) (c : ℤ × ℤ) : BuildSt :=
  if inBoundsHex c.1 c.2 then
    let corners := (List.range 6).map (fun i => hexCornerKey c.1 c.2 i)
    let s1 := corners.foldl addCorner s
    (List.range 6).foldl
      (fun st i =>
        adjAdd2 st (corners.getD i (0, 0)) (corners.getD ((i + 1) % 6) (0, 0)))
      s1
  else s

def hexCells : List (ℤ × ℤ) :=
  (symRange maxQh).flatMap (fun q => (symRange maxRh).map (fun r => (q, r)))

def hexBuildSt : BuildSt := hexCells.foldl addHexCell ⟨[], adjInit⟩

/-- Squared distance between two stored points.  JS `dist` is the square
root of this; only strict comparisons of distances are made and the square
root is strictly monotone, so the seed argmin is unchanged. -/
def distSqPt (p q : Pt) : Rt3 :=
  (p.1 - q.1) * (p.1 - q.1) + (p.2 - q.2) * (p.2 - q.2)

/-- Seed selection: first key of the map at strictly smallest distance to
the canvas centre (`d < bestD` keeps the earlier key on ties). -/
def bestKey (m : JsMap) : K :=
  (m.foldl
    (fun acc kv =>
      let d := distSqPt kv.2 (ofQ (width / 2), ofQ (height / 2))
      match acc with
      | none => some (kv.1, d)
      | some bd => if ltB d bd.2 then some (kv.1, d) else some bd)
    none).elim (0, 0) Prod.fst

def buildHexGraph : BuiltGraph :=
  ⟨hexBuildSt.pm, hexBuildSt.adj, bestKey hexBuildSt.pm⟩

/-! ### Invariants of the hexagon build -/

/-- The adjacency relation is symmetric. -/
def SymmAdj (adj : K → Finset K) : Prop := ∀ a b : K, b ∈ adj a ↔ a ∈ adj b

/-- Every endpoint of every adjacency edge is a stored node. -/
def EdgesStored (s : BuildSt) : Prop :=
  ∀ a b : K, b ∈ s.adj a → mapHas s.pm a = true ∧ mapHas s.pm b = true

theorem mem_adjAdd2 (s : BuildSt) (a b c x : K) :
    x ∈ (adjAdd2 s a b).adj c ↔
      x ∈ s.adj c ∨ (c = a ∧ x = b) ∨ (c = b ∧ x = a) := by
  unfold adjAdd2
  dsimp only
  rw [mem_updAdd]
  by_cases hcb : c = b
  · subst hcb
    simp only [true_and, ne_eq, not_true_eq_false, false_and, or_false]
    rw [mem_updAdd]
    by_cases hca : c = a <;> simp [hca] <;> tauto
  · simp only [hcb, false_and, false_or, ne_eq, not_false_iff, true_and,
      and_false, or_false]
    rw [mem_updAdd]
    by_cases hca : c = a <;> simp [hca] <;> tauto

theorem adjAdd2_pm (s : BuildSt) (a b : K) : (adjAdd2 s a b).pm = s.pm := rfl

theorem adjAdd2_symm (s : BuildSt) (a b : K) (h : SymmAdj s.adj) :
    SymmAdj (adjAdd2 s a b).adj := by
  intro x y
  rw [mem_adjAdd2, mem_adjAdd2, h x y]
  tauto

theorem adjAdd2_edgesStored (s : BuildSt) (a b : K) (h : EdgesStored s)
    (ha : mapHas s.pm a = true) (hb : mapHas s.pm b = true) :
    EdgesStored (adjAdd2 s a b) := by
  intro x y hy
  rw [adjAdd2_pm]
  rw [mem_adjAdd2] at hy
  rcases hy with hy | ⟨rfl, rfl⟩ | ⟨rfl, rfl⟩
  · exact h x y hy
  · exact ⟨ha, hb⟩
  · exact ⟨hb, ha⟩

theorem addCorner_adj (s : BuildSt) (key : K) (h : EdgesStored s) :
    (addCorner s key).adj = s.adj := by
  unfold addCorner
  by_cases hk : mapHas s.pm key = true
  · rw [if_pos hk]
  · rw [if_neg hk]
    dsimp only
    funext c
    rw [Function.update_apply]
    by_cases hc : c = key
    · subst hc
      rw [if_pos rfl]
      exact (Finset.eq_empty_of_forall_not_mem fun x hx => hk (h c x hx).1).symm
    · rw [if_neg hc]

theorem addCorner_has_mono (s : BuildSt) (key x : K)
    (h : mapHas s.pm x = true) : mapHas (addCorner s key).pm x = true := by
  unfold addCorner
  by_cases hk : mapHas s.pm key = true
  · rw [if_pos hk]; exact h
  · rw [if_neg hk]
    dsimp only
    exact (mapHas_set _ _ _ _).mpr (Or.inl h)

theorem addCorner_has_self (s : BuildSt) (key : K) :
    mapHas (addCorner s key).pm key = true := by
  unfold addCorner
  by_cases hk : mapHas s.pm key = true
  · rw [if_pos hk]; exact hk
  · rw [if_neg hk]
    dsimp only
    exact (mapHas_set _ _ _ _).mpr (Or.inr rfl)

theorem addCorner_nodup (s : BuildSt) (key : K)
    (h : (mapKeys s.pm).Nodup) : (mapKeys (addCorner s key).pm).Nodup := by
  unfold addCorner
  by_cases hk : mapHas s.pm key = true
  · rw [if_pos hk]; exact h
  · rw [if_neg hk]
    exact mapKeys_set_nodup _ _ _ h

theorem addCorner_edgesStored (s : BuildSt) (key : K) (h : EdgesStored s) :
    EdgesStored (addCorner s key) := by
  intro a b hb
  rw [addCorner_adj s key h] at hb
  exact ⟨addCorner_has_mono s key a (h a b hb).1,
    addCorner_has_mono s key b (h a b hb).2⟩

/-- Build-state invariant maintained by the hexagon builder. -/
def HexInv (s : BuildSt) : Prop :=
  SymmAdj s.adj ∧ EdgesStored s ∧ (mapKeys s.pm).Nodup

theorem cornersFold_has_mono (l : List K) (s : BuildSt) (x : K)
    (h : mapHas s.pm x = true) :
    mapHas (l.foldl addCorner s).pm x = true := by
  induction l generalizing s with
  | nil => exact h
  | cons a t ih => exact ih _ (addCorner_has_mono s a x h)

theorem cornersFold_has_all (l : List K) (s : BuildSt) (x : K) (hx : x ∈ l) :
    mapHas (l.foldl addCorner s).pm x = true := by
  induction l generalizing s with
  | nil => cases hx
  | cons a t ih =>
    rcases List.mem_cons.mp hx with rfl | hx2
    · exact cornersFold_has_mono t (addCorner s x) x (addCorner_has_self s x)
    · exact ih _ hx2

theorem cornersFold_inv (l : List K) (s : BuildSt) (h : HexInv s) :
    HexInv (l.foldl addCorner s) ∧ (l.foldl addCorner s).adj = s.adj := by
  induction l generalizing s with
  | nil => exact ⟨h, rfl⟩
  | cons a t ih =>
    obtain ⟨hsym, hes, hnd⟩ := h
    have hadj : (addCorner s a).adj = s.adj := addCorner_adj s a hes
    have hinv : HexInv (addCorner s a) :=
      ⟨by rw [hadj]; exact hsym, addCorner_edgesStored s a hes,
        addCorner_nodup s a hnd⟩
    obtain ⟨h1, h2⟩ := ih _ hinv
    exact ⟨h1, h2.trans hadj⟩

theorem getD_mem_of_lt {α : Type} (l : List α) (i : ℕ) (d : α) (h : i < l.length) :
    l.getD i d ∈ l := by
  induction l generalizing i with
  | nil => cases h
  | cons a t ih =>
    cases i with
    | zero => simp [List.getD]
    | succ n =>
      simp only [List.getD_cons_succ]
      exact List.mem_cons_of_mem _ (ih n (Nat.lt_of_succ_lt_succ h))

theorem linkFold_inv {α : Type} (L : List α) (f g : α → K) (s : BuildSt)
    (hf : ∀ i ∈ L, mapHas s.pm (f i) = true)
    (hg : ∀ i ∈ L, mapHas s.pm (g i) = true)
    (hsym : SymmAdj s.adj) (hes : EdgesStored s) :
    SymmAdj (L.foldl (fun st i => adjAdd2 st (f i) (g i)) s).adj ∧
      EdgesStored (L.foldl (fun st i => adjAdd2 st (f i) (g i)) s) ∧
      (L.foldl (fun st i => adjAdd2 st (f i) (g i)) s).pm = s.pm := by
  induction L generalizing s with
  | nil => exact ⟨hsym, hes, rfl⟩
  | cons i t ih =>
    rw [List.foldl_cons]
    have hpm : (adjAdd2 s (f i) (g i)).pm = s.pm := rfl
    have h1 := ih (adjAdd2 s (f i) (g i))
      (fun j hj => by rw [hpm]; exact hf j (List.mem_cons_of_mem _ hj))
      (fun j hj => by rw [hpm]; exact hg j (List.mem_cons_of_mem _ hj))
      (adjAdd2_symm s _ _ hsym)
      (adjAdd2_edgesStored s _ _ hes
        (hf i (List.mem_cons_self _ _)) (hg i (List.mem_cons_self _ _)))
    exact ⟨h1.1, h1.2.1, h1.2.2.trans hpm⟩

theorem addHexCell_inv (s : BuildSt) (c : ℤ × ℤ) (h : HexInv s) :
    HexInv (addHexCell s c) := by
  unfold addHexCell
  by_cases hb : inBoundsHex c.1 c.2 = true
  · rw [if_pos hb]
    set corners := (List.range 6).map (fun i => hexCornerKey c.1 c.2 i) with hc
    obtain ⟨hinv1, _⟩ := cornersFold_inv corners s h
    obtain ⟨hsym1, hes1, hnd1⟩ := hinv1
    set s1 := corners.foldl addCorner s with hs1
    have hlen : corners.length = 6 := by simp [hc]
    have hstored : ∀ i ∈ List.range 6,
        mapHas s1.pm (corners.getD i (0, 0)) = true := by
      intro i hi
      exact cornersFold_has_all corners s _
        (getD_mem_of_lt corners i (0, 0)
          (by rw [hlen]; exact List.mem_range.mp hi))
    have hstored2 : ∀ i ∈ List.range 6,
        mapHas s1.pm (corners.getD ((i + 1) % 6) (0, 0)) = true := by
      intro i _
      exact cornersFold_has_all corners s _
        (getD_mem_of_lt corners ((i + 1) % 6) (0, 0)
          (by rw [hlen]; exact Nat.mod_lt _ (by norm_num)))
    obtain ⟨h1, h2, h3⟩ := linkFold_inv (List.range 6)
      (fun i => corners.getD i (0, 0)) (fun i => corners.getD ((i + 1) % 6) (0, 0))
      s1 hstored hstored2 hsym1 hes1
    exact ⟨h1, h2, by rw [h3]; exact hnd1⟩
  · rw [if_neg hb]
    exact h

theorem addHexCell_has_mono (s : BuildSt) (c : ℤ × ℤ) (x : K)
    (h : mapHas s.pm x = true) : mapHas (addHexCell s c).pm x = true := by
  unfold addHexCell
  by_cases hb : inBoundsHex c.1 c.2 = true
  · rw [if_pos hb]
    set corners := (List.range 6).map (fun i => hexCornerKey c.1 c.2 i)
    have hmono := cornersFold_has_mono corners s x h
    have hpm : ∀ (L : List ℕ) (s2 : BuildSt),
        ((L.foldl (fun st i =>
          adjAdd2 st (corners.getD i (0, 0)) (corners.getD ((i + 1) % 6) (0, 0)))
          s2)).pm = s2.pm := by
      intro L
      induction L with
      | nil => intro s2; rfl
      | cons i t ih => intro s2; rw [List.foldl_cons]; exact ih _
    rw [hpm]
    exact hmono
  · rw [if_neg hb]
    exact h

theorem hexFold_inv (cells : List (ℤ × ℤ)) (s : BuildSt) (h : HexInv s) :
    HexInv (cells.foldl addHexCell s) := by
  induction cells generalizing s with
  | nil => exact h
  | cons c t ih => exact ih _ (addHexCell_inv s c h)

theorem hexFold_has_mono (cells : List (ℤ × ℤ)) (s : BuildSt) (x : K)
    (h : mapHas s.pm x = true) :
    mapHas (cells.foldl addHexCell s).pm x = true := by
  induction cells generalizing s with
  | nil => exact h
  | cons c t ih => exact ih _ (addHexCell_has_mono s c x h)

theorem hexBuildSt_inv : HexInv hexBuildSt := by
  apply hexFold_inv
  refine ⟨fun a b => by simp [adjInit], fun a b hb => absurd hb (by simp [adjInit]), ?_⟩
  simp [mapKeys]

/-! ## Circular (polar) builder

The number of points of ring `i` is `max(6, floor(2*PI*i))`, and each
point's key/stored position is its coordinates
`(cx + i*cellSize*cos(2πj/n), cy + i*cellSize*sin(2πj/n))` rounded to two
decimals.  `π` and `cos/sin` at these angles are transcendental, so these
two purely numeric ingredients are parameters of the embedding: `tp i`
stands for `floor(2*PI*i)` and `circPos i j` for the rounded coordinate
pair of point `j` of ring `i`.  Every container/linking step is embedded
faithfully, and the claims about this builder are proved for all values of
the parameters. -/

/-- `maxRing = floor((min(width,height)/2 - cellSize) / cellSize)`. -/
def maxRingC : ℤ := qfloor ((min width height / 2 - cellSize) / cellSize)

/-- The centre key: both coordinates rounded to 2 decimals. -/
def centerKey : K := (round2 (ofQ (width / 2)), round2 (ofQ (height / 2)))

/-- `n = max(6, floor(2*PI*i))`, with `tp i` standing for `floor(2*PI*i)`. -/
def ringSize (tp : ℕ → ℕ) (i : ℕ) : ℕ := max 6 (tp i)

/-- The key list `rings[i]` (`rings[0]` is the centre alone; ring `i ≥ 1`
collects its points in angle order). -/
def ringKeys (tp : ℕ → ℕ) (circPos : ℕ → ℕ → K) (i : ℕ) : List K :=
  if i = 0 then [centerKey]
  else (List.range (ringSize tp i)).map (circPos i)

/-- Ring indices `1 … maxRing` in loop order. -/
def ringIdx : List ℕ := (List.range maxRingC.toNat).map (fun t => t + 1)

/-- Radial-link ring indices `2 … maxRing` in loop order. -/
def radialIdx : List ℕ := (List.range (maxRingC.toNat - 1)).map (fun t => t + 2)

/-- `posMap.set(key, {x:xR, y:yR}); adj.set(key, new Set()); ring.push(key)`. -/
def addRingPoint (st : BuildSt) (k : K) : BuildSt :=
  ⟨mapSet st.pm k (ofQ k.1, ofQ k.2), Function.update st.adj k ∅⟩

/-- State after the centre point and all rings are created (no links yet). -/
def circAfterRings (tp : ℕ → ℕ) (circPos : ℕ → ℕ → K) : BuildSt :=
  ringIdx.foldl
    (fun st i => (ringKeys tp circPos i).foldl addRingPoint st)
    ⟨mapSet [] centerKey (ofQ (width / 2), ofQ (height / 2)),
      Function.update adjInit centerKey ∅⟩

/-- State after `rings[1].forEach(k => { adj.get(centerKey).add(k);
adj.get(k).add(centerKey); })`. -/
def circAfterCenter (tp : ℕ → ℕ) (circPos : ℕ → ℕ → K) : BuildSt :=
  (ringKeys tp circPos 1).foldl
    (fun st k => adjAdd2 st centerKey k)
    (circAfterRings tp circPos)

/-- State after each ring is additionally linked in a cycle. -/
def circAfterLoops (tp : ℕ → ℕ) (circPos : ℕ → ℕ → K) : BuildSt :=
  ringIdx.foldl
    (fun st i =>
      let ring := ringKeys tp circPos i
      (List.range ring.length).foldl
        (fun st2 j =>
          adjAdd2 st2 (ring.getD j (0, 0))
            (ring.getD ((j + 1) % ring.length) (0, 0)))
        st)
    (circAfterCenter tp circPos)

/-- The `best` of the radial-link search: first key of `prev` at strictly
smallest squared distance (`d2 < bestD` keeps the earlier key on ties). -/
def nearestKey (pm : JsMap) (p : Pt) (prev : List K) : Option K :=
  (prev.foldl
    (fun acc pk =>
      let pp := (mapGet pm pk).getD (ofQ 0, ofQ 0)
      let d := distSqPt pp p
      match acc with
      | none => some (pk, d)
      | some bd => if ltB d bd.2 then some (pk, d) else some bd)
    none).map Prod.fst

/-- State after the radial links (ring `i ≥ 2` to nearest point of ring
`i−1`).  `prev` is never empty in the sketch (each ring has ≥ 6 points);
the `none` branch is unreachable and leaves the state unchanged. -/
def buildCircularSt (tp : ℕ → ℕ) (circPos : ℕ → ℕ → K) : BuildSt :=
  radialIdx.foldl
    (fun st i =>
      (ringKeys tp circPos i).foldl
        (fun st2 k =>
          match nearestKey st2.pm ((mapGet st2.pm k).getD (ofQ 0, ofQ 0))
              (ringKeys tp circPos (i - 1)) with
          | some b => adjAdd2 st2 k b
          | none => st2)
        st)
    (circAfterLoops tp circPos)

def buildCircularGraph (tp : ℕ → ℕ) (circPos : ℕ → ℕ → K) : BuiltGraph :=
  ⟨(buildCircularSt tp circPos).pm, (buildCircularSt tp circPos).adj,
    centerKey⟩

/-! ### Invariants of the circular build -/

theorem adjAdd2_le (s : BuildSt) (a b x : K) :
    s.adj x ⊆ (adjAdd2 s a b).adj x := by
  intro y hy
  rw [mem_adjAdd2]
  exact Or.inl hy

section Circular

variable (tp : ℕ → ℕ) (circPos : ℕ → ℕ → K)

theorem circAfterRings_adj (x : K) : (circAfterRings tp circPos).adj x = ∅ := by
  unfold circAfterRings
  have step : ∀ (L : List K) (st : BuildSt), (∀ y, st.adj y = ∅) →
      ∀ y, (L.foldl addRingPoint st).adj y = ∅ := by
    intro L
    induction L with
    | nil => intro st h y; exact h y
    | cons k t ih =>
      intro st h y
      refine ih _ (fun z => ?_) y
      unfold addRingPoint
      dsimp only
      rw [Function.update_apply]
      by_cases hz : z = k
      · rw [if_pos hz]
      · rw [if_neg hz]; exact h z
  have outer : ∀ (I : List ℕ) (st : BuildSt), (∀ y, st.adj y = ∅) →
      ∀ y, (I.foldl (fun st i => (ringKeys tp circPos i).foldl addRingPoint st) st).adj y = ∅ := by
    intro I
    induction I with
    | nil => intro st h y; exact h y
    | cons i t ih =>
      intro st h y
      exact ih _ (step _ _ h) y
  refine outer _ _ (fun y => ?_) x
  dsimp only
  rw [Function.update_apply]
  by_cases hy : y = centerKey
  · rw [if_pos hy]
  · rw [if_neg hy]; rfl

theorem addRingPoint_has_mono (st : BuildSt) (k x : K)
    (h : mapHas st.pm x = true) : mapHas (addRingPoint st k).pm x = true := by
  unfold addRingPoint
  exact (mapHas_set _ _ _ _).mpr (Or.inl h)

theorem addRingPoint_has_self (st : BuildSt) (k : K) :
    mapHas (addRingPoint st k).pm k = true := by
  unfold addRingPoint
  exact (mapHas_set _ _ _ _).mpr (Or.inr rfl)

theorem ringFold_has_mono (L : List K) (st : BuildSt) (x : K)
    (h : mapHas st.pm x = true) :
    mapHas (L.foldl addRingPoint st).pm x = true := by
  induction L generalizing st with
  | nil => exact h
  | cons k t ih => exact ih _ (addRingPoint_has_mono st k x h)

theorem ringFold_has_all (L : List K) (st : BuildSt) (x : K) (hx : x ∈ L) :
    mapHas (L.foldl addRingPoint st).pm x = true := by
  induction L generalizing st with
  | nil => cases hx
  | cons k t ih =>
    rcases List.mem_cons.mp hx with rfl | hx2
    · exact ringFold_has_mono t _ x (addRingPoint_has_self st x)
    · exact ih _ hx2

theorem circAfterRings_has_center :
    mapHas (circAfterRings tp circPos).pm centerKey = true := by
  unfold circAfterRings
  have outer : ∀ (I : List ℕ) (st : BuildSt), mapHas st.pm centerKey = true →
      mapHas (I.foldl (fun st i => (ringKeys tp circPos i).foldl addRingPoint st) st).pm
        centerKey = true := by
    intro I
    induction I with
    | nil => intro st h; exact h
    | cons i t ih => intro st h; exact ih _ (ringFold_has_mono _ _ _ h)
  refine outer _ _ ?_
  exact (mapHas_set _ _ _ _).mpr (Or.inr rfl)

theorem circAfterRings_has_ring (i : ℕ) (hi : i ∈ ringIdx) (x : K)
    (hx : x ∈ ringKeys tp circPos i) :
    mapHas (circAfterRings tp circPos).pm x = true := by
  unfold circAfterRings
  have outer : ∀ (I : List ℕ) (st : BuildSt), i ∈ I →
      mapHas (I.foldl (fun st i => (ringKeys tp circPos i).foldl addRingPoint st) st).pm
        x = true := by
    intro I
    induction I with
    | nil => intro st h; cases h
    | cons j t ih =>
      intro st hj
      rcases List.mem_cons.mp hj with heq | hj2
      · rw [List.foldl_cons]
        rw [← heq]
        have h1 : mapHas ((ringKeys tp circPos i).foldl addRingPoint st).pm x = true :=
          ringFold_has_all _ _ _ hx
        -- remaining rings only grow the map
        have mono : ∀ (I2 : List ℕ) (st2 : BuildSt), mapHas st2.pm x = true →
            mapHas (I2.foldl (fun st i => (ringKeys tp circPos i).foldl addRingPoint st) st2).pm
              x = true := by
          intro I2
          induction I2 with
          | nil => intro st2 h; exact h
          | cons a u ihu => intro st2 h; exact ihu _ (ringFold_has_mono _ _ _ h)
        exact mono t _ h1
      · rw [List.foldl_cons]
        exact ih _ hj2
  exact outer _ _ hi

theorem nearFold_inv (pm : JsMap) (p : Pt) (L : List K) (P : K → Prop)
    (hL : ∀ y ∈ L, P y) :
    ∀ acc : Option (K × Rt3), (∀ xd : K × Rt3, acc = some xd → P xd.1) →
      ∀ xd : K × Rt3,
        (L.foldl
          (fun acc pk =>
            let pp := (mapGet pm pk).getD (ofQ 0, ofQ 0)
            let d := distSqPt pp p
            match acc with
            | none => some (pk, d)
            | some bd => if ltB d bd.2 then some (pk, d) else some bd)
          acc) = some xd → P xd.1 := by
  induction L with
  | nil => intro acc hacc xd h; exact hacc xd h
  | cons y t ih =>
    intro acc hacc xd h
    rw [List.foldl_cons] at h
    refine ih (fun z hz => hL z (List.mem_cons_of_mem _ hz)) _ ?_ xd h
    intro zd hzd
    have hy : P y := hL y (List.mem_cons_self _ _)
    cases acc with
    | none =>
      simp only at hzd
      cases hzd
      exact hy
    | some bd =>
      simp only at hzd
      by_cases hlt : ltB (distSqPt ((mapGet pm y).getD (ofQ 0, ofQ 0)) p) bd.2 = true
      · rw [if_pos hlt] at hzd
        cases hzd
        exact hy
      · rw [if_neg hlt] at hzd
        cases hzd
        exact hacc _ rfl

theorem nearestKey_mem (pm : JsMap) (p : Pt) (prev : List K) (b : K)
    (h : nearestKey pm p prev = some b) : b ∈ prev := by
  unfold nearestKey at h
  rcases Option.map_eq_some'.mp h with ⟨xd, hfold, rfl⟩
  exact nearFold_inv pm p prev (fun y => y ∈ prev) (fun y hy => hy)
    none (fun xd2 h2 => by cases h2) xd hfold

/-- Monotonicity of adjacency along any fold whose steps only add links. -/
theorem foldAdj_le {α : Type} (L : List α) (F : BuildSt → α → BuildSt)
    (hF : ∀ st a x, st.adj x ⊆ (F st a).adj x) (st : BuildSt) (x : K) :
    st.adj x ⊆ (L.foldl F st).adj x := by
  induction L generalizing st with
  | nil => exact fun y hy => hy
  | cons a t ih =>
    intro y hy
    rw [List.foldl_cons]
    exact ih _ (hF st a x hy)

theorem maxRingC_eq : maxRingC = 14 := by
  unfold maxRingC
  rw [show ((min width height / 2 - cellSize) / cellSize : ℚ) = 14 by
    norm_num [width, height, cellSize]]
  rfl

theorem one_mem_ringIdx : 1 ∈ ringIdx := by
  unfold ringIdx
  rw [maxRingC_eq]
  decide

theorem mem_ringIdx_ne_zero (i : ℕ) (hi : i ∈ ringIdx) : i ≠ 0 := by
  unfold ringIdx at hi
  rcases List.mem_map.mp hi with ⟨t, _, rfl⟩
  exact Nat.succ_ne_zero t

theorem mem_radialIdx_facts (i : ℕ) (hi : i ∈ radialIdx) :
    i ∈ ringIdx ∧ i - 1 ∈ ringIdx := by
  unfold radialIdx at hi
  rcases List.mem_map.mp hi with ⟨t, ht, rfl⟩
  have ht2 := List.mem_range.mp ht
  constructor
  · exact List.mem_map.mpr ⟨t + 1, List.mem_range.mpr (by omega), by omega⟩
  · exact List.mem_map.mpr ⟨t, List.mem_range.mpr (by omega), by omega⟩

theorem ringKeys_length_pos (i : ℕ) (hi : i ≠ 0) :
    0 < (ringKeys tp circPos i).length := by
  unfold ringKeys
  rw [if_neg hi]
  simp [ringSize]

/-- Everything stored by the ring phase, expressed for the centre and all
rings at once. -/
def CircStored (st : BuildSt) : Prop :=
  mapHas st.pm centerKey = true ∧
    ∀ i ∈ ringIdx, ∀ k ∈ ringKeys tp circPos i, mapHas st.pm k = true

theorem circAfterRings_stored :
    CircStored tp circPos (circAfterRings tp circPos) :=
  ⟨circAfterRings_has_center tp circPos,
    fun i hi k hk => circAfterRings_has_ring tp circPos i hi k hk⟩

/-- Invariant carried through the linking phases: symmetric adjacency,
edges only between stored nodes, and the node map equal to the one the
ring phase produced. -/
def CircInv (st : BuildSt) : Prop :=
  SymmAdj st.adj ∧ EdgesStored st ∧ st.pm = (circAfterRings tp circPos).pm

theorem circAfterCenter_inv : CircInv tp circPos (circAfterCenter tp circPos) := by
  unfold circAfterCenter
  obtain ⟨hc, hr⟩ := circAfterRings_stored tp circPos
  have h := linkFold_inv (ringKeys tp circPos 1) (fun _ => centerKey)
    (fun k => k) (circAfterRings tp circPos)
    (fun k _ => hc) (fun k hk => hr 1 one_mem_ringIdx k hk)
    (fun a b => by
      rw [circAfterRings_adj tp circPos b, circAfterRings_adj tp circPos a]
      simp)
    (fun a b hb => absurd hb (by
      rw [circAfterRings_adj tp circPos a]; exact Finset.not_mem_empty b))
  exact ⟨h.1, h.2.1, h.2.2⟩

theorem centerFold_links (L : List K) (st : BuildSt) (k : K) (hk : k ∈ L) :
    centerKey ∈ (L.foldl (fun st k => adjAdd2 st centerKey k) st).adj k ∧
      k ∈ (L.foldl (fun st k => adjAdd2 st centerKey k) st).adj centerKey := by
  induction L generalizing st with
  | nil => cases hk
  | cons a t ih =>
    rw [List.foldl_cons]
    rcases List.mem_cons.mp hk with rfl | hk2
    · constructor
      · apply foldAdj_le t _ (fun st2 b x2 => adjAdd2_le st2 centerKey b x2)
        rw [mem_adjAdd2]
        exact Or.inr (Or.inr ⟨rfl, rfl⟩)
      · apply foldAdj_le t _ (fun st2 b x2 => adjAdd2_le st2 centerKey b x2)
        rw [mem_adjAdd2]
        exact Or.inr (Or.inl ⟨rfl, rfl⟩)
    · exact ih _ hk2

theorem circAfterCenter_links (k : K) (hk : k ∈ ringKeys tp circPos 1) :
    centerKey ∈ (circAfterCenter tp circPos).adj k ∧
      k ∈ (circAfterCenter tp circPos).adj centerKey :=
  centerFold_links _ _ k hk

theorem circAfterLoops_inv : CircInv tp circPos (circAfterLoops tp circPos) := by
  unfold circAfterLoops
  obtain ⟨hc, hr⟩ := circAfterRings_stored tp circPos
  have main : ∀ (I : List ℕ), (∀ i ∈ I, i ∈ ringIdx) →
      ∀ st, CircInv tp circPos st →
      CircInv tp circPos
        (I.foldl
          (fun st i =>
            let ring := ringKeys tp circPos i
            (List.range ring.length).foldl
              (fun st2 j =>
                adjAdd2 st2 (ring.getD j (0, 0))
                  (ring.getD ((j + 1) % ring.length) (0, 0)))
              st)
          st) := by
    intro I
    induction I with
    | nil => intro _ st h; exact h
    | cons i t ih =>
      intro hI st h
      obtain ⟨hsym, hes, hpm⟩ := h
      rw [List.foldl_cons]
      have hi : i ∈ ringIdx := hI i (List.mem_cons_self _ _)
      have hlen : 0 < (ringKeys tp circPos i).length :=
        ringKeys_length_pos tp circPos i (mem_ringIdx_ne_zero i hi)
      have hf : ∀ j ∈ List.range (ringKeys tp circPos i).length,
          mapHas st.pm ((ringKeys tp circPos i).getD j (0, 0)) = true := by
        intro j hj
        rw [hpm]
        exact hr i hi _ (getD_mem_of_lt _ _ _ (List.mem_range.mp hj))
      have hg : ∀ j ∈ List.range (ringKeys tp circPos i).length,
          mapHas st.pm
            ((ringKeys tp circPos i).getD
              ((j + 1) % (ringKeys tp circPos i).length) (0, 0)) = true := by
        intro j _
        rw [hpm]
        exact hr i hi _ (getD_mem_of_lt _ _ _ (Nat.mod_lt _ hlen))
      obtain ⟨h1, h2, h3⟩ := linkFold_inv
        (List.range (ringKeys tp circPos i).length)
        (fun j => (ringKeys tp circPos i).getD j (0, 0))
        (fun j => (ringKeys tp circPos i).getD
          ((j + 1) % (ringKeys tp circPos i).length) (0, 0))
        st hf hg hsym hes
      exact ih (fun j hj => hI j (List.mem_cons_of_mem _ hj)) _
        ⟨h1, h2, h3.trans hpm⟩
  exact main ringIdx (fun i hi => hi) _ (circAfterCenter_inv tp circPos)

theorem radialStep_inv (i : ℕ) (hii : i ∈ ringIdx) (hi1 : i - 1 ∈ ringIdx)
    (L : List K) (hL : ∀ k ∈ L, k ∈ ringKeys tp circPos i)
    (st : BuildSt) (h : CircInv tp circPos st) :
    CircInv tp circPos
      (L.foldl
        (fun st2 k =>
          match nearestKey st2.pm ((mapGet st2.pm k).getD (ofQ 0, ofQ 0))
              (ringKeys tp circPos (i - 1)) with
          | some b => adjAdd2 st2 k b
          | none => st2)
        st) := by
  obtain ⟨hc, hr⟩ := circAfterRings_stored tp circPos
  induction L generalizing st with
  | nil => exact h
  | cons k t ih =>
    rw [List.foldl_cons]
    obtain ⟨hsym, hes, hpm⟩ := h
    have hk : k ∈ ringKeys tp circPos i := hL k (List.mem_cons_self _ _)
    have hnext : CircInv tp circPos
        (match nearestKey st.pm ((mapGet st.pm k).getD (ofQ 0, ofQ 0))
            (ringKeys tp circPos (i - 1)) with
          | some b => adjAdd2 st k b
          | none => st) := by
      cases hnk : nearestKey st.pm ((mapGet st.pm k).getD (ofQ 0, ofQ 0))
          (ringKeys tp circPos (i - 1)) with
      | none => exact ⟨hsym, hes, hpm⟩
      | some b =>
        have hb : b ∈ ringKeys tp circPos (i - 1) := nearestKey_mem _ _ _ _ hnk
        refine ⟨adjAdd2_symm st k b hsym, adjAdd2_edgesStored st k b hes ?_ ?_, hpm⟩
        · rw [hpm]; exact hr i hii k hk
        · rw [hpm]; exact hr (i - 1) hi1 b hb
    exact ih (fun x hx => hL x (List.mem_cons_of_mem _ hx)) _ hnext

theorem buildCircularSt_inv : CircInv tp circPos (buildCircularSt tp circPos) := by
  unfold buildCircularSt
  have main : ∀ (I : List ℕ), (∀ i ∈ I, i ∈ radialIdx) →
      ∀ st, CircInv tp circPos st →
      CircInv tp circPos
        (I.foldl
          (fun st i =>
            (ringKeys tp circPos i).foldl
              (fun st2 k =>
                match nearestKey st2.pm ((mapGet st2.pm k).getD (ofQ 0, ofQ 0))
                    (ringKeys tp circPos (i - 1)) with
                | some b => adjAdd2 st2 k b
                | none => st2)
              st)
          st) := by
    intro I
    induction I with
    | nil => intro _ st h; exact h
    | cons i t ih =>
      intro hI st h
      rw [List.foldl_cons]
      have hi : i ∈ radialIdx := hI i (List.mem_cons_self _ _)
      obtain ⟨h1, h2⟩ := mem_radialIdx_facts i hi
      exact ih (fun j hj => hI j (List.mem_cons_of_mem _ hj)) _
        (radialStep_inv tp circPos i h1 h2 _ (fun k hk => hk) st h)
  exact main radialIdx (fun i hi => hi) _ (circAfterLoops_inv tp circPos)

theorem circAfterLoops_le (x : K) :
    (circAfterCenter tp circPos).adj x ⊆ (circAfterLoops tp circPos).adj x := by
  unfold circAfterLoops
  apply foldAdj_le
  intro st i y
  dsimp only
  apply foldAdj_le
  intro st2 j y2
  exact adjAdd2_le st2 _ _ y2

theorem buildCircularSt_le (x : K) :
    (circAfterLoops tp circPos).adj x ⊆ (buildCircularSt tp circPos).adj x := by
  unfold buildCircularSt
  apply foldAdj_le
  intro st i y
  apply foldAdj_le
  intro st2 k y2 z hz
  cases hnk : nearestKey st2.pm ((mapGet st2.pm k).getD (ofQ 0, ofQ 0))
      (ringKeys tp circPos (i - 1)) with
  | none => simpa [hnk] using hz
  | some b =>
    simp only [hnk]
    exact adjAdd2_le st2 k b y2 hz

/-- Ring 1 is doubly linked to the centre in the finished circular graph. -/
theorem buildCircular_ring1 (k : K) (hk : k ∈ ringKeys tp circPos 1) :
    centerKey ∈ (buildCircularGraph tp circPos).adj k ∧
      k ∈ (buildCircularGraph tp circPos).adj centerKey := by
  obtain ⟨h1, h2⟩ := circAfterCenter_links tp circPos k hk
  constructor
  · exact buildCircularSt_le tp circPos k
      (circAfterLoops_le tp circPos k h1)
  · exact buildCircularSt_le tp circPos centerKey
      (circAfterLoops_le tp circPos centerKey h2)

end Circular

/-! ## Walk engine, leaf colorer, cycle controller -/

inductive GridType
  | square
  | triangular
  | hexagon
  | circular
deriving DecidableEq, Repr

def GRID_TYPES : List GridType :=
  [GridType.square, GridType.triangular, GridType.hexagon, GridType.circular]

/-- The mutable walk state of the sketch.  `edges` records the `line` calls
and `dots` the `ellipse` calls (key, fill colour, diameter) as rendering
instrumentation; `linkCount` is total with default `0`, matching
`linkCount[k] || 0`. -/
structure WalkState where
  visited : List K
  visitedSet : Finset K
  linkCount : K → ℕ
  deadMarked : Finset K
  edges : List (K × K)
  dots : List (K × String × ℚ)

/-- `getUnvisitedNeighbors(k)`: the stored neighbours of `k` not yet
visited (the sketch materialises them as an array; only membership,
emptiness and a uniform choice are ever used). -/
def getUnvisitedNeighbors (adj : K → Finset K) (vs : Finset K) (k : K) :
    Finset K :=
  (adj k).filter (fun x => x ∉ vs)

/-- `visited.filter(k => getUnvisitedNeighbors(k).length > 0)`. -/
def frontier (adj : K → Finset K) (s : WalkState) : List K :=
  s.visited.filter
    (fun k => decide (getUnvisitedNeighbors adj s.visitedSet k ≠ ∅))

/-- `(currentGrid === 'hexagon' ? hexRadius : cellSize) * 0.6`. -/
def dotSize (g : GridType) : ℚ :=
  (if g = GridType.hexagon then hexRadius else cellSize) * (6 / 10)

/-- The leaf condition of `markAllLeaves` for node `k`: not yet marked,
recorded degree exactly 1, and no unvisited neighbours left. -/
def Leafable (adj : K → Finset K) (s : WalkState) (k : K) : Prop :=
  k ∉ s.deadMarked ∧ s.linkCount k = 1 ∧
    getUnvisitedNeighbors adj s.visitedSet k = ∅

instance (adj : K → Finset K) (s : WalkState) (k : K) :
    Decidable (Leafable adj s k) := by
  unfold Leafable
  infer_instance

/-- One iteration of the `markAllLeaves` loop: draw a dot (colour picked
from the palette by the random draw `cc k`, diameter keyed to the grid)
and mark the node, when the leaf condition holds. -/
def leafStep (adj : K → Finset K) (grid : GridType) (cc : K → Fin 3)
    (s : WalkState) (k : K) : WalkState :=
  if Leafable adj s k then
    { s with
      deadMarked := insert k s.deadMarked
      dots := s.dots ++ [(k, dotColors.getD (cc k).val "", dotSize grid)] }
  else s

/-- `markAllLeaves()`: scan the visited list in order. -/
def markAllLeaves (adj : K → Finset K) (grid : GridType) (cc : K → Fin 3)
    (s : WalkState) : WalkState :=
  s.visited.foldl (leafStep adj grid cc) s

/-- The non-terminal branch of `draw()`: draw the edge `curKey—nxtKey`,
bump both degree counters, mark `nxtKey` visited, then colour new leaves.
`c` and `x` are the two uniform random choices. -/
def stepDraw (adj : K → Finset K) (grid : GridType) (cc : K → Fin 3)
    (c x : K) (s : WalkState) : WalkState :=
  let lc1 := Function.update s.linkCount c (s.linkCount c + 1)
  let lc2 := Function.update lc1 x (lc1 x + 1)
  markAllLeaves adj grid cc
    { s with
      edges := s.edges ++ [(c, x)]
      linkCount := lc2
      visited := s.visited ++ [x]
      visitedSet := insert x s.visitedSet }

/-- The walk state set up by `pickNewGrid` (the degree map `{[startKey]: 0}`
reads as the constant-0 default everywhere). -/
def initWalk (startKey : K) : WalkState :=
  { visited := [startKey]
    visitedSet := {startKey}
    linkCount := fun _ => 0
    deadMarked := ∅
    edges := []
    dots := [] }

/-- Iterate `stepDraw` over a list of choice pairs. -/
def walkRun (adj : K → Finset K) (grid : GridType) (cc : K → Fin 3) :
    WalkState → List (K × K) → WalkState
  | s, [] => s
  | s, p :: l => walkRun adj grid cc (stepDraw adj grid cc p.1 p.2 s) l

/-- A list of choice pairs is a valid run of non-terminal steps: each
current key is drawn from the frontier and each next key from its
unvisited neighbours. -/
def ValidRun (adj : K → Finset K) (grid : GridType) (cc : K → Fin 3) :
    WalkState → List (K × K) → Prop
  | _, [] => True
  | s, p :: l =>
    p.1 ∈ frontier adj s ∧
      p.2 ∈ getUnvisitedNeighbors adj s.visitedSet p.1 ∧
      ValidRun adj grid cc (stepDraw adj grid cc p.1 p.2 s) l

/-! ### The cycle controller -/

/-- Which builder `pickNewGrid` dispatches to. -/
def buildFor (tp : ℕ → ℕ) (circPos : ℕ → ℕ → K) : GridType → BuiltGraph
  | GridType.square => buildSquareGraph
  | GridType.triangular => buildTriGraph
  | GridType.hexagon => buildHexGraph
  | GridType.circular => buildCircularGraph tp circPos

/-- The whole-sketch state: current grid type, built graph, walk state.
Clearing the canvas (`background(bgColor)`) is the discarding of the old
walk instrumentation on reset. -/
structure SysState where
  currentGrid : GridType
  graph : BuiltGraph
  walk : WalkState

/-- `random(GRID_TYPES)`: the uniform draw is modelled by the index `g`. -/
def gridOf (g : Fin 4) : GridType := GRID_TYPES.get ⟨g.val, g.isLt⟩

/-- `pickNewGrid()`: choose the grid named by the random draw `g`, build
it, and reset the walk state to the seed. -/
def pickNewGrid (tp : ℕ → ℕ) (circPos : ℕ → ℕ → K) (g : Fin 4) : SysState :=
  let grid := gridOf g
  let G := buildFor tp circPos grid
  ⟨grid, G, initWalk G.startKey⟩

/-- `setup()` simply runs `pickNewGrid` (after canvas initialisation). -/
def setup (tp : ℕ → ℕ) (circPos : ℕ → ℕ → K) (g : Fin 4) : SysState :=
  pickNewGrid tp circPos g

/-- One `draw()` tick.  Returns the new state and the list of dots rendered
during this tick (drawn before any canvas clear).  On exhaustion the final
leaves are coloured and the sketch restarts immediately with the freshly
drawn grid type `g`; otherwise one walk step with choices `c`, `x` runs. -/
def drawTick (tp : ℕ → ℕ) (circPos : ℕ → ℕ → K) (g : Fin 4)
    (cc : K → Fin 3) (c x : K) (s : SysState) :
    SysState × List (K × String × ℚ) :=
  if frontier s.graph.adj s.walk = [] then
    let w := markAllLeaves s.graph.adj s.currentGrid cc s.walk
    (pickNewGrid tp circPos g, w.dots.drop s.walk.dots.length)
  else
    let w := stepDraw s.graph.adj s.currentGrid cc c x s.walk
    ({ s with walk := w }, w.dots.drop s.walk.dots.length)

/-! ### Evaluation support -/

theorem qfloor_eq (q : ℚ) : qfloor q = ⌊q⌋ := by
  rw [Rat.floor_def, qfloor]
  exact Int.fdiv_eq_ediv _ (by positivity)

theorem Rt3.add_def (x y : Rt3) : x + y = ⟨x.a + y.a, x.b + y.b⟩ := rfl

theorem Rt3.sub_def (x y : Rt3) : x - y = ⟨x.a - y.a, x.b - y.b⟩ := rfl

theorem Rt3.neg_def (x : Rt3) : -x = ⟨-x.a, -x.b⟩ := rfl

theorem Rt3.mul_def (x y : Rt3) :
    x * y = ⟨x.a * y.a + 3 * x.b * y.b, x.a * y.b + x.b * y.a⟩ := rfl

theorem Rt3.div_def (x y : Rt3) : x / y = x * Rt3.inv y := rfl

theorem cols_eq : cols = 31 := by
  rw [cols, qfloor_eq,
    show (width / cellSize : ℚ) = ((30 : ℤ) : ℚ) by norm_num [width, cellSize]]
  rw [Int.floor_intCast]
  decide

theorem rows_eq : rows = 31 := by
  rw [rows, qfloor_eq,
    show (height / cellSize : ℚ) = ((30 : ℤ) : ℚ) by norm_num [height, cellSize]]
  rw [Int.floor_intCast]
  decide

theorem maxQt_eq : maxQt = 31 := by
  rw [maxQt, qfloor_eq,
    show (width / cellSize : ℚ) = ((30 : ℤ) : ℚ) by norm_num [width, cellSize]]
  rw [Int.floor_intCast]
  decide

theorem maxRt_eq : maxRt = 31 := by
  rw [maxRt, qfloor_eq,
    show (height / cellSize : ℚ) = ((30 : ℤ) : ℚ) by norm_num [height, cellSize]]
  rw [Int.floor_intCast]
  decide

theorem maxRh_eq : maxRh = 22 := by
  rw [maxRh, qfloor_eq,
    show (height / hHex : ℚ) = ((20 : ℤ) : ℚ) by
      norm_num [height, hHex, hexRadius]]
  rw [Int.floor_intCast]
  decide

theorem square_start_eq : buildSquareGraph.startKey = ((15 : ℚ), (15 : ℚ)) := by
  show coordKey (qfloor ((cols : ℚ) / 2)) (qfloor ((rows : ℚ) / 2)) = _
  rw [cols_eq, rows_eq, qfloor_eq,
    show (((31 : ℤ) : ℚ)) / 2 = ((31 : ℤ) : ℚ) / ((2 : ℕ) : ℚ) by norm_num,
    Rat.floor_intCast_div_natCast]
  rw [coordKey]
  norm_num

theorem fl3_ten : fl3 (10 : ℚ) = 17 := by
  have hs : Nat.sqrt 300 = 17 := (Nat.eq_sqrt'.mpr (by norm_num)).symm
  rw [fl3, if_pos (by norm_num), fl3Nat,
    show (10 : ℚ).num = 10 from rfl, show (10 : ℚ).den = 1 from rfl,
    show ((10 : ℤ).toNat) = 10 from rfl,
    show (3 * 10 ^ 2 * 1 ^ 2 : ℕ) = 300 by norm_num, hs]
  decide

theorem maxQh_eq : maxQh = 19 := by
  have h1 : ofQ width / wHex = ⟨0, 10⟩ := by
    simp only [Rt3.div_def, Rt3.mul_def, Rt3.inv, wHex, sqrt3, ofQ, width,
      hexRadius]
    exact congrArg₂ Rt3.mk (by norm_num) (by norm_num)
  rw [maxQh, h1, floorR]
  have h2 : qfloor ((⟨0, 10⟩ : Rt3).a) + fl3 ((⟨0, 10⟩ : Rt3).b) = 17 := by
    show qfloor 0 + fl3 10 = 17
    rw [fl3_ten, show qfloor 0 = 0 from rfl]
    decide
  rw [h2]
  rw [if_neg ?hne]
  case hne =>
    intro hle
    rw [leB, Rt3.sub_def, nonnegB] at hle
    simp only [ofQ] at hle
    norm_num at hle
  rfl

/-! ### Support lemmas for the concrete grids -/

theorem mapGet_some_mem (m : JsMap) (k : K) (v : Pt)
    (h : mapGet m k = some v) : (k, v) ∈ m := by
  induction m with
  | nil => cases h
  | cons kv t ih =>
    rw [mapGet] at h
    by_cases hk : kv.1 = k
    · rw [if_pos hk] at h
      subst hk
      cases h
      exact List.mem_cons_self _ _
    · rw [if_neg hk] at h
      exact List.mem_cons_of_mem _ (ih h)

theorem coordKey_inj (a b c d : ℤ) (h : coordKey a b = coordKey c d) :
    a = c ∧ b = d := by
  unfold coordKey at h
  obtain ⟨h1, h2⟩ := Prod.mk.injEq _ _ _ _ ▸ h
  exact ⟨by exact_mod_cast h1, by exact_mod_cast h2⟩

theorem mem_innerRange (n a : ℤ) :
    a ∈ innerRange n ↔ 1 ≤ a ∧ a ≤ n - 2 := by
  unfold innerRange
  simp only [List.mem_map, List.mem_range]
  constructor
  · rintro ⟨t, ht, rfl⟩
    omega
  · rintro ⟨h1, h2⟩
    exact ⟨(a - 1).toNat, by omega, by omega⟩

theorem mem_symRange (n a : ℤ) :
    a ∈ symRange n ↔ -n ≤ a ∧ a ≤ n := by
  unfold symRange
  simp only [List.mem_map, List.mem_range]
  constructor
  · rintro ⟨t, ht, rfl⟩
    omega
  · rintro ⟨h1, h2⟩
    exact ⟨(a + n).toNat, by omega, by omega⟩

theorem mem_squareCells (c : ℤ × ℤ) :
    c ∈ squareCells ↔
      (1 ≤ c.1 ∧ c.1 ≤ 29) ∧ (1 ≤ c.2 ∧ c.2 ≤ 29) := by
  unfold squareCells
  rw [List.mem_flatMap]
  constructor
  · rintro ⟨i, hi, hmem⟩
    rcases List.mem_map.mp hmem with ⟨j, hj, rfl⟩
    rw [mem_innerRange, cols_eq] at hi
    rw [mem_innerRange, rows_eq] at hj
    constructor <;> simp <;> omega
  · rintro ⟨⟨h1, h2⟩, h3, h4⟩
    refine ⟨c.1, ?_, List.mem_map.mpr ⟨c.2, ?_, rfl⟩⟩
    · rw [mem_innerRange, cols_eq]; omega
    · rw [mem_innerRange, rows_eq]; omega

theorem pairFold_pm {α : Type} (L : List α) (f g : α → K) (s : BuildSt) :
    (L.foldl (fun st i => adjAdd2 st (f i) (g i)) s).pm = s.pm := by
  induction L generalizing s with
  | nil => rfl
  | cons i t ih =>
    rw [List.foldl_cons]
    exact (ih _).trans rfl

theorem mem_triCells (c : ℤ × ℤ) :
    c ∈ triCells ↔ (-31 ≤ c.1 ∧ c.1 ≤ 31) ∧ (-31 ≤ c.2 ∧ c.2 ≤ 31) := by
  unfold triCells
  rw [List.mem_flatMap]
  constructor
  · rintro ⟨q, hq, hmem⟩
    rcases List.mem_map.mp hmem with ⟨r, hr, rfl⟩
    rw [mem_symRange, maxQt_eq] at hq
    rw [mem_symRange, maxRt_eq] at hr
    constructor <;> simp <;> omega
  · rintro ⟨⟨h1, h2⟩, h3, h4⟩
    refine ⟨c.1, ?_, List.mem_map.mpr ⟨c.2, ?_, rfl⟩⟩
    · rw [mem_symRange, maxQt_eq]; omega
    · rw [mem_symRange, maxRt_eq]; omega

theorem inBoundsTri_00 : inBoundsTri 0 0 = true := by
  have hx : triX 0 0 = 300 := by norm_num [triX, width, cellSize]
  have hy : triY 0 = ⟨300, 0⟩ := by
    simp only [triY, Rt3.mul_def, Rt3.add_def, ofQ, height, cellSize]
    exact congrArg₂ Rt3.mk (by norm_num) (by norm_num)
  rw [inBoundsTri, hx, hy]
  simp only [leB, Rt3.sub_def, nonnegB, ofQ, cellSize, width, height]
  norm_num

/-- Every stored node of every grid. -/
def nodesOf (G : BuiltGraph) : Finset K := (mapKeys G.posMap).toFinset

/-- Well-formed adjacency: every neighbour is a stored node. -/
def AdjWF (adj : K → Finset K) (nodes : Finset K) : Prop :=
  ∀ a b : K, b ∈ adj a → b ∈ nodes

theorem coordKey_15 : coordKey 15 15 = ((15 : ℚ), (15 : ℚ)) := by
  norm_num [coordKey]

theorem coordKey_00 : coordKey 0 0 = ((0 : ℚ), (0 : ℚ)) := by
  norm_num [coordKey]

theorem square_symm (a b : K) :
    b ∈ buildSquareGraph.adj a ↔ a ∈ buildSquareGraph.adj b := by
  exact linkDirs_symm dirsSquare squarePosMap
    (guardedBuild_nodup _ _ _) (by decide) a b

theorem square_wf : AdjWF buildSquareGraph.adj (nodesOf buildSquareGraph) := by
  intro a b hb
  have h := (mem_linkDirs dirsSquare squarePosMap
    (guardedBuild_nodup _ _ _) a b).mp hb
  rcases h with ⟨_, d, _, hhas, rfl⟩
  exact List.mem_toFinset.mpr ((mapHas_iff _ _).mp hhas)

theorem square_start_mem :
    buildSquareGraph.startKey ∈ nodesOf buildSquareGraph := by
  rw [square_start_eq, ← coordKey_15]
  apply List.mem_toFinset.mpr
  exact (guardedBuild_keys _ _ _ _).mpr
    ⟨(15, 15), (mem_squareCells _).mpr (by norm_num), rfl, rfl⟩

theorem tri_symm (a b : K) :
    b ∈ buildTriGraph.adj a ↔ a ∈ buildTriGraph.adj b := by
  exact linkDirs_symm TRI_DIRS triPosMap
    (guardedBuild_nodup _ _ _) (by decide) a b

theorem tri_wf : AdjWF buildTriGraph.adj (nodesOf buildTriGraph) := by
  intro a b hb
  have h := (mem_linkDirs TRI_DIRS triPosMap
    (guardedBuild_nodup _ _ _) a b).mp hb
  rcases h with ⟨_, d, _, hhas, rfl⟩
  exact List.mem_toFinset.mpr ((mapHas_iff _ _).mp hhas)

theorem tri_start_mem :
    buildTriGraph.startKey ∈ nodesOf buildTriGraph := by
  apply List.mem_toFinset.mpr
  exact (guardedBuild_keys _ _ _ _).mpr
    ⟨(0, 0), (mem_triCells _).mpr (by norm_num), inBoundsTri_00, rfl⟩

/-! #### Concrete facts about the hexagon build -/

theorem hexCx_00 : hexCx 0 0 = ⟨300, 0⟩ := by
  simp only [hexCx, wHex, sqrt3, ofQ, width, hexRadius, Rt3.mul_def,
    Rt3.add_def]
  exact congrArg₂ Rt3.mk (by norm_num) (by norm_num)

theorem hexCx_10 : hexCx 1 0 = ⟨300, 20⟩ := by
  simp only [hexCx, wHex, sqrt3, ofQ, width, hexRadius, Rt3.mul_def,
    Rt3.add_def]
  exact congrArg₂ Rt3.mk (by norm_num) (by norm_num)

theorem hexCy_0 : hexCy 0 = ⟨300, 0⟩ := by
  simp only [hexCy, ofQ, height, hHex, hexRadius, Rt3.mul_def, Rt3.add_def]
  exact congrArg₂ Rt3.mk (by norm_num) (by norm_num)

theorem inBoundsHex_00 : inBoundsHex 0 0 = true := by
  rw [inBoundsHex, hexCx_00, hexCy_0]
  simp only [leB, Rt3.sub_def, Rt3.add_def, nonnegB, ofQ, width, height,
    hexRadius]
  norm_num

theorem inBoundsHex_10 : inBoundsHex 1 0 = true := by
  rw [inBoundsHex, hexCx_10, hexCy_0]
  simp only [leB, Rt3.sub_def, Rt3.add_def, nonnegB, ofQ, width, height,
    hexRadius]
  norm_num

/-- Hexagons `(0,0)` and `(1,0)` share the exact geometric corner point
`(300 + 10√3, 310)`: corner 0 of the first and corner 2 of the second. -/
theorem hexCornerPt_shared :
    hexCornerPt 0 0 0 = ((⟨300, 10⟩ : Rt3), (⟨310, 0⟩ : Rt3)) ∧
      hexCornerPt 1 0 2 = ((⟨300, 10⟩ : Rt3), (⟨310, 0⟩ : Rt3)) := by
  constructor
  · unfold hexCornerPt
    rw [hexCx_00, hexCy_0]
    simp only [hexCos, hexSin, ofQ, hexRadius, Rt3.mul_def, Rt3.add_def]
    exact congrArg₂ Prod.mk
      (congrArg₂ Rt3.mk (by norm_num) (by norm_num))
      (congrArg₂ Rt3.mk (by norm_num) (by norm_num))
  · unfold hexCornerPt
    rw [hexCx_10, hexCy_0]
    simp only [hexCos, hexSin, ofQ, hexRadius, Rt3.mul_def, Rt3.add_def]
    exact congrArg₂ Prod.mk
      (congrArg₂ Rt3.mk (by norm_num) (by norm_num))
      (congrArg₂ Rt3.mk (by norm_num) (by norm_num))

theorem hexCorner_key_shared : hexCornerKey 0 0 0 = hexCornerKey 1 0 2 := by
  unfold hexCornerKey
  rw [hexCornerPt_shared.1, hexCornerPt_shared.2]

theorem mem_hexCells (c : ℤ × ℤ) :
    c ∈ hexCells ↔ (-19 ≤ c.1 ∧ c.1 ≤ 19) ∧ (-22 ≤ c.2 ∧ c.2 ≤ 22) := by
  unfold hexCells
  rw [List.mem_flatMap]
  constructor
  · rintro ⟨q, hq, hmem⟩
    rcases List.mem_map.mp hmem with ⟨r, hr, rfl⟩
    rw [mem_symRange, maxQh_eq] at hq
    rw [mem_symRange, maxRh_eq] at hr
    constructor <;> simp <;> omega
  · rintro ⟨⟨h1, h2⟩, h3, h4⟩
    refine ⟨c.1, ?_, List.mem_map.mpr ⟨c.2, ?_, rfl⟩⟩
    · rw [mem_symRange, maxQh_eq]; omega
    · rw [mem_symRange, maxRh_eq]; omega

theorem mem_hexCells_00 : ((0, 0) : ℤ × ℤ) ∈ hexCells := by
  rw [mem_hexCells]
  norm_num

theorem addHexCell_corner_present (s : BuildSt) (q r : ℤ)
    (hb : inBoundsHex q r = true) (i : ℕ) (hi : i < 6) :
    mapHas (addHexCell s (q, r)).pm (hexCornerKey q r i) = true := by
  unfold addHexCell
  rw [if_pos hb]
  rw [pairFold_pm]
  exact cornersFold_has_all _ _ _
    (List.mem_map.mpr ⟨i, List.mem_range.mpr hi, rfl⟩)

theorem hexCorner_present :
    mapHas hexBuildSt.pm (hexCornerKey 0 0 0) = true := by
  obtain ⟨l1, l2, hsplit⟩ := List.append_of_mem mem_hexCells_00
  unfold hexBuildSt
  rw [hsplit, List.foldl_append, List.foldl_cons]
  exact hexFold_has_mono l2 _ _
    (addHexCell_corner_present _ 0 0 inBoundsHex_00 0 (by norm_num))

/-! #### The seed of the hexagon builder is a stored key -/

theorem bestFold_some {M : K → Prop} (m : JsMap)
    (hm : ∀ kv ∈ m, M kv.1) :
    ∀ acc : Option (K × Rt3), (∀ kd, acc = some kd → M kd.1) →
      ∀ kd, (m.foldl
        (fun acc kv =>
          let d := distSqPt kv.2 (ofQ (width / 2), ofQ (height / 2))
          match acc with
          | none => some (kv.1, d)
          | some bd => if ltB d bd.2 then some (kv.1, d) else some bd)
        acc) = some kd → M kd.1 := by
  induction m with
  | nil => intro acc hacc kd h; exact hacc kd h
  | cons kv t ih =>
    intro acc hacc kd h
    rw [List.foldl_cons] at h
    refine ih (fun z hz => hm z (List.mem_cons_of_mem _ hz)) _ ?_ kd h
    intro zd hzd
    have hy : M kv.1 := hm kv (List.mem_cons_self _ _)
    cases acc with
    | none =>
      simp only at hzd
      cases hzd
      exact hy
    | some bd =>
      simp only at hzd
      by_cases hlt : ltB (distSqPt kv.2 (ofQ (width / 2), ofQ (height / 2)))
          bd.2 = true
      · rw [if_pos hlt] at hzd
        cases hzd
        exact hy
      · rw [if_neg hlt] at hzd
        cases hzd
        exact hacc _ rfl

theorem bestFold_isSome (m : JsMap) (hne : m ≠ []) :
    ((m.foldl
      (fun acc kv =>
        let d := distSqPt kv.2 (ofQ (width / 2), ofQ (height / 2))
        match acc with
        | none => some (kv.1, d)
        | some bd => if ltB d bd.2 then some (kv.1, d) else some bd)
      none)).isSome = true := by
  have step : ∀ (t : List (K × Pt)) (acc : Option (K × Rt3)),
      acc.isSome = true →
      ((t.foldl
        (fun acc kv =>
          let d := distSqPt kv.2 (ofQ (width / 2), ofQ (height / 2))
          match acc with
          | none => some (kv.1, d)
          | some bd => if ltB d bd.2 then some (kv.1, d) else some bd)
        acc)).isSome = true := by
    intro t
    induction t with
    | nil => intro acc h; exact h
    | cons kv u ih =>
      intro acc h
      rw [List.foldl_cons]
      rcases Option.isSome_iff_exists.mp h with ⟨bd, rfl⟩
      apply ih
      simp only
      by_cases hlt : ltB (distSqPt kv.2 (ofQ (width / 2), ofQ (height / 2)))
          bd.2 = true
      · rw [if_pos hlt]; rfl
      · rw [if_neg hlt]; rfl
  cases m with
  | nil => exact absurd rfl hne
  | cons kv t =>
    rw [List.foldl_cons]
    exact step t _ rfl

theorem bestKey_mem (m : JsMap) (hne : m ≠ []) : bestKey m ∈ mapKeys m := by
  unfold bestKey
  rcases Option.isSome_iff_exists.mp (bestFold_isSome m hne) with ⟨kd, hkd⟩
  rw [hkd]
  exact bestFold_some m
    (fun kv hkv => List.mem_map.mpr ⟨kv, hkv, rfl⟩)
    none (fun z hz => by cases hz) kd hkd

theorem hexBuildSt_pm_ne : hexBuildSt.pm ≠ [] := by
  intro h
  have h2 := hexCorner_present
  rw [h] at h2
  cases h2

theorem hex_symm (a b : K) :
    b ∈ hexBuildSt.adj a ↔ a ∈ hexBuildSt.adj b :=
  hexBuildSt_inv.1 a b

theorem hex_wf :
    AdjWF hexBuildSt.adj (mapKeys hexBuildSt.pm).toFinset := by
  intro a b hb
  exact List.mem_toFinset.mpr
    ((mapHas_iff _ _).mp (hexBuildSt_inv.2.1 a b hb).2)

theorem hex_start_mem :
    bestKey hexBuildSt.pm ∈ (mapKeys hexBuildSt.pm).toFinset :=
  List.mem_toFinset.mpr (bestKey_mem _ hexBuildSt_pm_ne)

theorem circ_symm (tp : ℕ → ℕ) (circPos : ℕ → ℕ → K) (a b : K) :
    b ∈ (buildCircularGraph tp circPos).adj a ↔
      a ∈ (buildCircularGraph tp circPos).adj b :=
  (buildCircularSt_inv tp circPos).1 a b

theorem circ_wf (tp : ℕ → ℕ) (circPos : ℕ → ℕ → K) :
    AdjWF (buildCircularGraph tp circPos).adj
      (nodesOf (buildCircularGraph tp circPos)) := by
  intro a b hb
  exact List.mem_toFinset.mpr
    ((mapHas_iff _ _).mp ((buildCircularSt_inv tp circPos).2.1 a b hb).2)

theorem circ_start_mem (tp : ℕ → ℕ) (circPos : ℕ → ℕ → K) :
    (buildCircularGraph tp circPos).startKey ∈
      nodesOf (buildCircularGraph tp circPos) := by
  apply List.mem_toFinset.mpr
  apply (mapHas_iff _ _).mp
  show mapHas (buildCircularSt tp circPos).pm centerKey = true
  rw [(buildCircularSt_inv tp circPos).2.2]
  exact circAfterRings_has_center tp circPos

/-! #### The concrete square map: centre value and bounds -/

theorem squarePosMap_get_start :
    mapGet squarePosMap ((15 : ℚ), (15 : ℚ)) = some (ofQ 300, ofQ 300) := by
  have hk : ((15 : ℚ), (15 : ℚ)) ∈ mapKeys squarePosMap := by
    rw [← coordKey_15]
    exact (guardedBuild_keys _ _ _ _).mpr
      ⟨(15, 15), (mem_squareCells _).mpr (by norm_num), rfl, rfl⟩
  have hs : mapHas squarePosMap ((15 : ℚ), (15 : ℚ)) = true :=
    (mapHas_iff _ _).mpr hk
  rw [mapHas] at hs
  rcases Option.isSome_iff_exists.mp hs with ⟨v, hv⟩
  rcases guardedBuild_entries _ _ _ _ (mapGet_some_mem _ _ _ hv) with
    ⟨c, _, _, heq⟩
  obtain ⟨h1, h2⟩ := Prod.mk.injEq _ _ _ _ ▸ heq
  obtain ⟨hc1, hc2⟩ := coordKey_inj c.1 c.2 15 15 (by rw [← h1, coordKey_15])
  rw [hv, h2, hc1, hc2]
  norm_num [ofQ, cellSize]

theorem squarePosMap_bounds (kv : K × Pt) (hkv : kv ∈ squarePosMap) :
    ∃ x y : ℚ, kv.2 = (ofQ x, ofQ y) ∧
      cellSize ≤ x ∧ x ≤ width - cellSize ∧
      cellSize ≤ y ∧ y ≤ height - cellSize := by
  rcases guardedBuild_entries _ _ _ _ hkv with ⟨c, hc, _, rfl⟩
  obtain ⟨⟨h1, h2⟩, h3, h4⟩ := (mem_squareCells c).mp hc
  have g1 : (1 : ℚ) ≤ (c.1 : ℚ) := by exact_mod_cast h1
  have g2 : (c.1 : ℚ) ≤ 29 := by exact_mod_cast h2
  have g3 : (1 : ℚ) ≤ (c.2 : ℚ) := by exact_mod_cast h3
  have g4 : (c.2 : ℚ) ≤ 29 := by exact_mod_cast h4
  refine ⟨(c.1 : ℚ) * cellSize, (c.2 : ℚ) * cellSize, rfl, ?_, ?_, ?_, ?_⟩ <;>
    simp only [cellSize, width, height] <;> nlinarith

/-! ### Properties of the leaf colorer -/

theorem leafStep_fields (adj : K → Finset K) (grid : GridType)
    (cc : K → Fin 3) (s : WalkState) (k : K) :
    (leafStep adj grid cc s k).visited = s.visited ∧
      (leafStep adj grid cc s k).visitedSet = s.visitedSet ∧
      (leafStep adj grid cc s k).linkCount = s.linkCount ∧
      (leafStep adj grid cc s k).edges = s.edges := by
  unfold leafStep
  split <;> exact ⟨rfl, rfl, rfl, rfl⟩

theorem leafFold_fields (adj : K → Finset K) (grid : GridType)
    (cc : K → Fin 3) (l : List K) :
    ∀ s : WalkState,
      (l.foldl (leafStep adj grid cc) s).visited = s.visited ∧
      (l.foldl (leafStep adj grid cc) s).visitedSet = s.visitedSet ∧
      (l.foldl (leafStep adj grid cc) s).linkCount = s.linkCount ∧
      (l.foldl (leafStep adj grid cc) s).edges = s.edges := by
  induction l with
  | nil => intro s; exact ⟨rfl, rfl, rfl, rfl⟩
  | cons a t ih =>
    intro s
    rw [List.foldl_cons]
    obtain ⟨h1, h2, h3, h4⟩ := ih (leafStep adj grid cc s a)
    obtain ⟨g1, g2, g3, g4⟩ := leafStep_fields adj grid cc s a
    exact ⟨h1.trans g1, h2.trans g2, h3.trans g3, h4.trans g4⟩

theorem mem_dead_leafFold (adj : K → Finset K) (grid : GridType)
    (cc : K → Fin 3) (l : List K) :
    ∀ (s : WalkState) (k : K),
      k ∈ (l.foldl (leafStep adj grid cc) s).deadMarked ↔
        k ∈ s.deadMarked ∨ (k ∈ l ∧ s.linkCount k = 1 ∧
          getUnvisitedNeighbors adj s.visitedSet k = ∅) := by
  induction l with
  | nil => intro s k; simp
  | cons a t ih =>
    intro s k
    rw [List.foldl_cons, ih]
    obtain ⟨_, hvs, hlc, _⟩ := leafStep_fields adj grid cc s a
    rw [hlc, hvs]
    by_cases hif : Leafable adj s a
    · have hd : (leafStep adj grid cc s a).deadMarked = insert a s.deadMarked := by
        unfold leafStep
        rw [if_pos hif]
      rw [hd]
      simp only [Finset.mem_insert, List.mem_cons]
      constructor
      · rintro ((rfl | hk) | ⟨hkt, hc⟩)
        · exact Or.inr ⟨Or.inl rfl, hif.2⟩
        · exact Or.inl hk
        · exact Or.inr ⟨Or.inr hkt, hc⟩
      · rintro (hk | ⟨rfl | hkt, hc⟩)
        · exact Or.inl (Or.inr hk)
        · exact Or.inl (Or.inl rfl)
        · exact Or.inr ⟨hkt, hc⟩
    · have hd : (leafStep adj grid cc s a).deadMarked = s.deadMarked := by
        unfold leafStep
        rw [if_neg hif]
      rw [hd]
      simp only [List.mem_cons]
      constructor
      · rintro (hk | ⟨hkt, hc⟩)
        · exact Or.inl hk
        · exact Or.inr ⟨Or.inr hkt, hc⟩
      · rintro (hk | ⟨rfl | hkt, hc⟩)
        · exact Or.inl hk
        · by_cases had : k ∈ s.deadMarked
          · exact Or.inl had
          · exact absurd ⟨had, hc.1, hc.2⟩ hif
        · exact Or.inr ⟨hkt, hc⟩

theorem mem_dots_leafFold (adj : K → Finset K) (grid : GridType)
    (cc : K → Fin 3) (l : List K) :
    ∀ (s : WalkState) (d : K × String × ℚ),
      d ∈ (l.foldl (leafStep adj grid cc) s).dots ↔
        d ∈ s.dots ∨ ∃ k, k ∈ l ∧ k ∉ s.deadMarked ∧ s.linkCount k = 1 ∧
          getUnvisitedNeighbors adj s.visitedSet k = ∅ ∧
          d = (k, dotColors.getD (cc k).val "", dotSize grid) := by
  induction l with
  | nil => intro s d; simp
  | cons a t ih =>
    intro s d
    rw [List.foldl_cons, ih]
    obtain ⟨_, hvs, hlc, _⟩ := leafStep_fields adj grid cc s a
    rw [hlc, hvs]
    by_cases hif : Leafable adj s a
    · have hd : (leafStep adj grid cc s a).deadMarked = insert a s.deadMarked := by
        unfold leafStep
        rw [if_pos hif]
      have hdots : (leafStep adj grid cc s a).dots =
          s.dots ++ [(a, dotColors.getD (cc a).val "", dotSize grid)] := by
        unfold leafStep
        rw [if_pos hif]
      rw [hd, hdots]
      constructor
      · rintro (hin | ⟨k, hkt, hkd, hc1, hc2, rfl⟩)
        · rcases List.mem_append.mp hin with hin2 | hin2
          · exact Or.inl hin2
          · rcases List.mem_singleton.mp hin2 with rfl
            exact Or.inr ⟨a, List.mem_cons_self _ _, hif.1, hif.2.1, hif.2.2, rfl⟩
        · rw [Finset.mem_insert] at hkd
          push_neg at hkd
          exact Or.inr ⟨k, List.mem_cons_of_mem _ hkt, hkd.2, hc1, hc2, rfl⟩
      · rintro (hin | ⟨k, hk, hkd, hc1, hc2, rfl⟩)
        · exact Or.inl (List.mem_append.mpr (Or.inl hin))
        · by_cases hka : k = a
          · subst hka
            exact Or.inl (List.mem_append.mpr (Or.inr (List.mem_singleton.mpr rfl)))
          · rcases List.mem_cons.mp hk with rfl | hkt
            · exact absurd rfl hka
            · refine Or.inr ⟨k, hkt, ?_, hc1, hc2, rfl⟩
              rw [Finset.mem_insert]
              push_neg
              exact ⟨hka, hkd⟩
    · have hd : (leafStep adj grid cc s a).deadMarked = s.deadMarked := by
        unfold leafStep
        rw [if_neg hif]
      have hdots : (leafStep adj grid cc s a).dots = s.dots := by
        unfold leafStep
        rw [if_neg hif]
      rw [hd, hdots]
      constructor
      · rintro (hin | ⟨k, hkt, hkd, hc1, hc2, rfl⟩)
        · exact Or.inl hin
        · exact Or.inr ⟨k, List.mem_cons_of_mem _ hkt, hkd, hc1, hc2, rfl⟩
      · rintro (hin | ⟨k, hk, hkd, hc1, hc2, rfl⟩)
        · exact Or.inl hin
        · rcases List.mem_cons.mp hk with rfl | hkt
          · exact absurd ⟨hkd, hc1, hc2⟩ hif
          · exact Or.inr ⟨k, hkt, hkd, hc1, hc2, rfl⟩

theorem markAllLeaves_dead (adj : K → Finset K) (grid : GridType)
    (cc : K → Fin 3) (s : WalkState) (k : K) :
    k ∈ (markAllLeaves adj grid cc s).deadMarked ↔
      k ∈ s.deadMarked ∨ (k ∈ s.visited ∧ s.linkCount k = 1 ∧
        getUnvisitedNeighbors adj s.visitedSet k = ∅) :=
  mem_dead_leafFold adj grid cc s.visited s k

theorem markAllLeaves_dots (adj : K → Finset K) (grid : GridType)
    (cc : K → Fin 3) (s : WalkState) (d : K × String × ℚ) :
    d ∈ (markAllLeaves adj grid cc s).dots ↔
      d ∈ s.dots ∨ ∃ k, k ∈ s.visited ∧ k ∉ s.deadMarked ∧
        s.linkCount k = 1 ∧
        getUnvisitedNeighbors adj s.visitedSet k = ∅ ∧
        d = (k, dotColors.getD (cc k).val "", dotSize grid) :=
  mem_dots_leafFold adj grid cc s.visited s d

theorem markAllLeaves_fields (adj : K → Finset K) (grid : GridType)
    (cc : K → Fin 3) (s : WalkState) :
    (markAllLeaves adj grid cc s).visited = s.visited ∧
      (markAllLeaves adj grid cc s).visitedSet = s.visitedSet ∧
      (markAllLeaves adj grid cc s).linkCount = s.linkCount ∧
      (markAllLeaves adj grid cc s).edges = s.edges :=
  leafFold_fields adj grid cc s.visited s

theorem leafFold_id (adj : K → Finset K) (grid : GridType) (cc : K → Fin 3)
    (l : List K) :
    ∀ s : WalkState, (∀ a ∈ l, ¬ Leafable adj s a) →
      l.foldl (leafStep adj grid cc) s = s := by
  induction l with
  | nil => intro s _; rfl
  | cons a t ih =>
    intro s h
    rw [List.foldl_cons]
    have h1 : leafStep adj grid cc s a = s := by
      unfold leafStep
      rw [if_neg (h a (List.mem_cons_self _ _))]
    rw [h1]
    exact ih s (fun x hx => h x (List.mem_cons_of_mem _ hx))

/-- Running the leaf colorer a second time changes nothing at all. -/
theorem markAllLeaves_idem (adj : K → Finset K) (grid : GridType)
    (cc cc2 : K → Fin 3) (s : WalkState) :
    markAllLeaves adj grid cc (markAllLeaves adj grid cc2 s) =
      markAllLeaves adj grid cc2 s := by
  obtain ⟨hv, hvs, hlc, _⟩ := markAllLeaves_fields adj grid cc2 s
  rw [markAllLeaves]
  apply leafFold_id
  intro a ha hleaf
  obtain ⟨hdead, hc1, hc2⟩ := hleaf
  rw [hv] at ha
  rw [hlc] at hc1
  rw [hvs] at hc2
  exact hdead ((markAllLeaves_dead adj grid cc2 s a).mpr
    (Or.inr ⟨ha, hc1, hc2⟩))

/-! ### Properties of the walk step -/

theorem mem_unvis (adj : K → Finset K) (vs : Finset K) (k x : K) :
    x ∈ getUnvisitedNeighbors adj vs k ↔ x ∈ adj k ∧ x ∉ vs := by
  unfold getUnvisitedNeighbors
  simp

theorem unvis_insert_subset (adj : K → Finset K) (vs : Finset K) (y k : K) :
    getUnvisitedNeighbors adj (insert y vs) k ⊆
      getUnvisitedNeighbors adj vs k := by
  intro z hz
  rw [mem_unvis] at hz ⊢
  exact ⟨hz.1, fun h2 => hz.2 (Finset.mem_insert_of_mem h2)⟩

theorem mem_frontier (adj : K → Finset K) (s : WalkState) (k : K) :
    k ∈ frontier adj s ↔
      k ∈ s.visited ∧ getUnvisitedNeighbors adj s.visitedSet k ≠ ∅ := by
  unfold frontier
  simp [List.mem_filter]

theorem stepDraw_fields (adj : K → Finset K) (grid : GridType)
    (cc : K → Fin 3) (c x : K) (s : WalkState) :
    (stepDraw adj grid cc c x s).visited = s.visited ++ [x] ∧
      (stepDraw adj grid cc c x s).visitedSet = insert x s.visitedSet ∧
      (stepDraw adj grid cc c x s).linkCount =
        (fun k =>
          Function.update (Function.update s.linkCount c (s.linkCount c + 1)) x
            (Function.update s.linkCount c (s.linkCount c + 1) x + 1) k) ∧
      (stepDraw adj grid cc c x s).edges = s.edges ++ [(c, x)] := by
  unfold stepDraw
  obtain ⟨h1, h2, h3, h4⟩ := markAllLeaves_fields adj grid cc
    { s with
      edges := s.edges ++ [(c, x)]
      linkCount := Function.update
        (Function.update s.linkCount c (s.linkCount c + 1)) x
        (Function.update s.linkCount c (s.linkCount c + 1) x + 1)
      visited := s.visited ++ [x]
      visitedSet := insert x s.visitedSet }
  exact ⟨h1, h2, h3, h4⟩

/-- Walk invariant supporting the leaf-permanence claim: every marked node
has recorded degree 1, an empty unvisited-neighbour set, and is visited;
and every entry of the visited list is in the visited set. -/
def MarkedInv (adj : K → Finset K) (s : WalkState) : Prop :=
  (∀ k ∈ s.deadMarked, s.linkCount k = 1 ∧
      getUnvisitedNeighbors adj s.visitedSet k = ∅ ∧ k ∈ s.visitedSet) ∧
    ∀ k ∈ s.visited, k ∈ s.visitedSet

theorem markedInv_init (adj : K → Finset K) (start : K) :
    MarkedInv adj (initWalk start) := by
  constructor
  · intro k hk
    exact absurd hk (by simp [initWalk])
  · intro k hk
    simp only [initWalk] at hk ⊢
    rcases List.mem_singleton.mp hk with rfl
    exact Finset.mem_singleton_self k

theorem marked_not_endpoint (adj : K → Finset K) (s : WalkState) (c x k : K)
    (hinv : MarkedInv adj s) (hk : k ∈ s.deadMarked)
    (hc : c ∈ frontier adj s)
    (hx : x ∈ getUnvisitedNeighbors adj s.visitedSet c) :
    c ≠ k ∧ x ≠ k := by
  obtain ⟨_, h2, h3⟩ := hinv.1 k hk
  constructor
  · rintro rfl
    exact ((mem_frontier adj s c).mp hc).2 h2
  · rintro rfl
    exact ((mem_unvis adj s.visitedSet c x).mp hx).2 h3

theorem markedInv_step (adj : K → Finset K) (grid : GridType)
    (cc : K → Fin 3) (c x : K) (s : WalkState) (hinv : MarkedInv adj s)
    (hc : c ∈ frontier adj s)
    (hx : x ∈ getUnvisitedNeighbors adj s.visitedSet c) :
    MarkedInv adj (stepDraw adj grid cc c x s) ∧
      ∀ k ∈ s.deadMarked,
        (stepDraw adj grid cc c x s).linkCount k = s.linkCount k ∧
          k ∈ (stepDraw adj grid cc c x s).deadMarked := by
  obtain ⟨hV, hVS, hLC, _⟩ := stepDraw_fields adj grid cc c x s
  have hlc_marked : ∀ k ∈ s.deadMarked,
      (stepDraw adj grid cc c x s).linkCount k = s.linkCount k := by
    intro k hk
    obtain ⟨hck, hxk⟩ := marked_not_endpoint adj s c x k hinv hk hc hx
    rw [hLC]
    dsimp only
    rw [Function.update_apply, if_neg (fun h => hxk h.symm),
      Function.update_apply, if_neg (fun h => hck h.symm)]
  have hdead_char : ∀ k, k ∈ (stepDraw adj grid cc c x s).deadMarked ↔
      k ∈ s.deadMarked ∨ (k ∈ s.visited ++ [x] ∧
        (Function.update (Function.update s.linkCount c (s.linkCount c + 1)) x
          (Function.update s.linkCount c (s.linkCount c + 1) x + 1)) k = 1 ∧
        getUnvisitedNeighbors adj (insert x s.visitedSet) k = ∅) := by
    intro k
    unfold stepDraw
    rw [markAllLeaves_dead]
  have hvisited_all : ∀ k ∈ s.visited ++ [x],
      k ∈ insert x s.visitedSet := by
    intro k hk
    rcases List.mem_append.mp hk with h2 | h2
    · exact Finset.mem_insert_of_mem (hinv.2 k h2)
    · rcases List.mem_singleton.mp h2 with rfl
      exact Finset.mem_insert_self k _
  refine ⟨⟨?_, ?_⟩, fun k hk => ⟨hlc_marked k hk, ?_⟩⟩
  · intro k hk
    rcases (hdead_char k).mp hk with h2 | ⟨h2, h3, h4⟩
    · obtain ⟨g1, g2, g3⟩ := hinv.1 k h2
      refine ⟨by rw [hlc_marked k h2]; exact g1, ?_, ?_⟩
      · rw [hVS]
        have hsub := unvis_insert_subset adj s.visitedSet x k
        rw [g2] at hsub
        exact Finset.subset_empty.mp hsub
      · rw [hVS]
        exact Finset.mem_insert_of_mem g3
    · refine ⟨?_, ?_, ?_⟩
      · rw [hLC]
        exact h3
      · rw [hVS]
        exact h4
      · rw [hVS]
        exact hvisited_all k h2
  · intro k hk
    rw [hV] at hk
    rw [hVS]
    exact hvisited_all k hk
  · rw [hdead_char]
    exact Or.inl hk

/-! ### Termination bound -/

theorem run_card (adj : K → Finset K) (grid : GridType) (cc : K → Fin 3)
    (l : List (K × K)) :
    ∀ s : WalkState, ValidRun adj grid cc s l →
      (walkRun adj grid cc s l).visitedSet.card =
        s.visitedSet.card + l.length := by
  induction l with
  | nil => intro s _; rfl
  | cons p t ih =>
    intro s hv
    obtain ⟨hc, hx, hrest⟩ := hv
    rw [walkRun, ih _ hrest]
    obtain ⟨_, hVS, _, _⟩ := stepDraw_fields adj grid cc p.1 p.2 s
    rw [hVS, Finset.card_insert_of_not_mem
      ((mem_unvis adj s.visitedSet p.1 p.2).mp hx).2]
    simp only [List.length_cons]
    omega

theorem run_subset (adj : K → Finset K) (grid : GridType) (cc : K → Fin 3)
    (nodes : Finset K) (hwf : AdjWF adj nodes) (l : List (K × K)) :
    ∀ s : WalkState, s.visitedSet ⊆ nodes → ValidRun adj grid cc s l →
      (walkRun adj grid cc s l).visitedSet ⊆ nodes := by
  induction l with
  | nil => intro s hs _; exact hs
  | cons p t ih =>
    intro s hs hv
    obtain ⟨hc, hx, hrest⟩ := hv
    rw [walkRun]
    refine ih _ ?_ hrest
    obtain ⟨_, hVS, _, _⟩ := stepDraw_fields adj grid cc p.1 p.2 s
    rw [hVS]
    intro z hz
    rcases Finset.mem_insert.mp hz with rfl | hz2
    · exact hwf p.1 _ ((mem_unvis adj s.visitedSet p.1 _).mp hx).1
    · exact hs hz2

/-- Any valid run of non-terminal steps from the initial single-node state
has length at most `nodes.card − 1`. -/
theorem run_length_bound (adj : K → Finset K) (grid : GridType)
    (cc : K → Fin 3) (nodes : Finset K) (start : K)
    (hwf : AdjWF adj nodes) (hstart : start ∈ nodes) (l : List (K × K))
    (hv : ValidRun adj grid cc (initWalk start) l) :
    l.length ≤ nodes.card - 1 := by
  have h1 : (walkRun adj grid cc (initWalk start) l).visitedSet.card =
      1 + l.length := by
    rw [run_card adj grid cc l _ hv]
    simp [initWalk]
  have h2 : (walkRun adj grid cc (initWalk start) l).visitedSet ⊆ nodes := by
    refine run_subset adj grid cc nodes hwf l _ ?_ hv
    intro z hz
    simp only [initWalk, Finset.mem_singleton] at hz
    subst hz
    exact hstart
  have h3 := Finset.card_le_card h2
  omega

/-! ## The claims -/

/-- **C1.** For every graph produced by any of the four geometry builders
(square, triangular, hexagon-corners, circular-polar), the adjacency
mapping is symmetric: for every pair of node keys `A` and `B`, `A ∈ adj[B]`
if and only if `B ∈ adj[A]`.  (The circular builder is quantified over its
two numeric parameters, see `buildCircularGraph`.) -/
theorem C1_adjacency_symmetric :
    (∀ a b : K, b ∈ buildSquareGraph.adj a ↔ a ∈ buildSquareGraph.adj b) ∧
      (∀ a b : K, b ∈ buildTriGraph.adj a ↔ a ∈ buildTriGraph.adj b) ∧
      (∀ a b : K, b ∈ hexBuildSt.adj a ↔ a ∈ hexBuildSt.adj b) ∧
      ∀ (tp : ℕ → ℕ) (circPos : ℕ → ℕ → K) (a b : K),
        b ∈ (buildCircularGraph tp circPos).adj a ↔
          a ∈ (buildCircularGraph tp circPos).adj b :=
  ⟨square_symm, tri_symm, hex_symm, circ_symm⟩

/-- **C2.** Every non-terminal step of the walk engine (a draw tick where
some visited node has an unvisited neighbour, here with the two uniform
draws `c` from the frontier and `x` from `c`'s unvisited neighbours) adds
exactly one node to the visited set, and that node was not previously
visited; the visited-set size grows by exactly 1. -/
theorem C2_step_adds_one_node (adj : K → Finset K) (grid : GridType)
    (cc : K → Fin 3) (c x : K) (s : WalkState)
    (hc : c ∈ frontier adj s)
    (hx : x ∈ getUnvisitedNeighbors adj s.visitedSet c) :
    x ∉ s.visitedSet ∧
      (stepDraw adj grid cc c x s).visitedSet = insert x s.visitedSet ∧
      (stepDraw adj grid cc c x s).visitedSet.card =
        s.visitedSet.card + 1 := by
  have hnot : x ∉ s.visitedSet := ((mem_unvis adj s.visitedSet c x).mp hx).2
  obtain ⟨_, hVS, _, _⟩ := stepDraw_fields adj grid cc c x s
  exact ⟨hnot, hVS, by rw [hVS, Finset.card_insert_of_not_mem hnot]⟩

/-- **C3.** The walk always terminates: whenever the adjacency only points
at stored nodes and the start node is stored, every valid run of
non-terminal steps from the single-node start state has length at most
(number of nodes − 1); and all four builders produce such a graph and
start key. -/
theorem C3_walk_terminates :
    (∀ (adj : K → Finset K) (grid : GridType) (cc : K → Fin 3)
        (nodes : Finset K) (start : K) (l : List (K × K)),
      AdjWF adj nodes → start ∈ nodes →
        ValidRun adj grid cc (initWalk start) l →
        l.length ≤ nodes.card - 1) ∧
      (AdjWF buildSquareGraph.adj (nodesOf buildSquareGraph) ∧
        buildSquareGraph.startKey ∈ nodesOf buildSquareGraph) ∧
      (AdjWF buildTriGraph.adj (nodesOf buildTriGraph) ∧
        buildTriGraph.startKey ∈ nodesOf buildTriGraph) ∧
      (AdjWF hexBuildSt.adj (mapKeys hexBuildSt.pm).toFinset ∧
        bestKey hexBuildSt.pm ∈ (mapKeys hexBuildSt.pm).toFinset) ∧
      ∀ (tp : ℕ → ℕ) (circPos : ℕ → ℕ → K),
        AdjWF (buildCircularGraph tp circPos).adj
            (nodesOf (buildCircularGraph tp circPos)) ∧
          (buildCircularGraph tp circPos).startKey ∈
            nodesOf (buildCircularGraph tp circPos) :=
  ⟨fun adj grid cc nodes start l hwf hstart hv =>
      run_length_bound adj grid cc nodes start hwf hstart l hv,
    ⟨square_wf, square_start_mem⟩, ⟨tri_wf, tri_start_mem⟩,
    ⟨hex_wf, hex_start_mem⟩,
    fun tp circPos => ⟨circ_wf tp circPos, circ_start_mem tp circPos⟩⟩

/-- **C4.** The leaf colorer marks a visited node as a terminal leaf (and
renders a dot for it, with colour from the 3-colour palette and diameter
keyed to the current grid type) exactly when it is not already leaf-marked,
its recorded degree equals exactly 1, and it has no remaining unvisited
neighbours; all other nodes are left unmarked and receive no dot. -/
theorem C4_leaf_condition (adj : K → Finset K) (grid : GridType)
    (cc : K → Fin 3) (s : WalkState) :
    (∀ k : K,
      k ∈ (markAllLeaves adj grid cc s).deadMarked ↔
        k ∈ s.deadMarked ∨ (k ∈ s.visited ∧ s.linkCount k = 1 ∧
          getUnvisitedNeighbors adj s.visitedSet k = ∅)) ∧
      ∀ d : K × String × ℚ,
        d ∈ (markAllLeaves adj grid cc s).dots ↔
          d ∈ s.dots ∨ ∃ k, k ∈ s.visited ∧ k ∉ s.deadMarked ∧
            s.linkCount k = 1 ∧
            getUnvisitedNeighbors adj s.visitedSet k = ∅ ∧
            d = (k, dotColors.getD (cc k).val "", dotSize grid) ∧
            d.2.1 ∈ dotColors := by
  refine ⟨fun k => markAllLeaves_dead adj grid cc s k, fun d => ?_⟩
  rw [markAllLeaves_dots]
  constructor
  · rintro (h | ⟨k, h1, h2, h3, h4, rfl⟩)
    · exact Or.inl h
    · exact Or.inr ⟨k, h1, h2, h3, h4, rfl,
        getD_mem_of_lt dotColors (cc k).val "" (cc k).isLt⟩
  · rintro (h | ⟨k, h1, h2, h3, h4, rfl, _⟩)
    · exact Or.inl h
    · exact Or.inr ⟨k, h1, h2, h3, h4, rfl⟩

/-- **C5.** Hexagons `(0,0)` and `(1,0)` are adjacent in-bounds hexagons
sharing the geometric corner point `(300 + 10·√3, 310)` (corner 0 of the
first, corner 2 of the second); rounding to 2 decimal places produces the
same key from both hexagons, and in the finished map exactly one node is
stored under that key. -/
theorem C5_hex_corner_dedup :
    inBoundsHex 0 0 = true ∧ inBoundsHex 1 0 = true ∧
      hexCornerPt 0 0 0 = hexCornerPt 1 0 2 ∧
      hexCornerKey 0 0 0 = hexCornerKey 1 0 2 ∧
      (mapKeys hexBuildSt.pm).count (hexCornerKey 0 0 0) = 1 := by
  refine ⟨inBoundsHex_00, inBoundsHex_10, ?_, hexCorner_key_shared, ?_⟩
  · rw [hexCornerPt_shared.1, hexCornerPt_shared.2]
  · have hbr : (mapKeys hexBuildSt.pm).count (hexCornerKey 0 0 0) =
        @List.count K instBEqOfDecidableEq (hexCornerKey 0 0 0)
          (mapKeys hexBuildSt.pm) := by
      unfold List.count
      refine List.countP_congr (fun x _ => ?_)
      rw [show (@BEq.beq K instBEqOfDecidableEq x (hexCornerKey 0 0 0)) =
          decide (x = hexCornerKey 0 0 0) from rfl]
      constructor
      · intro h
        have h2 : x = hexCornerKey 0 0 0 := eq_of_beq h
        exact decide_eq_true h2
      · intro h
        have h2 : x = hexCornerKey 0 0 0 := of_decide_eq_true h
        subst h2
        exact beq_self_eq_true _
    rw [hbr]
    exact List.count_eq_one_of_mem hexBuildSt_inv.2.2
      ((mapHas_iff _ _).mp hexCorner_present)

/-- **C6.** The square builder (cellSize 20, canvas 600×600) returns the
start key `(15, 15)`, whose stored position is the canvas centre
`(width/2, height/2)`; and because the outermost ring of cells is excluded,
every stored position satisfies `cellSize ≤ x ≤ width − cellSize` and
`cellSize ≤ y ≤ height − cellSize` — no node lies on a canvas edge. -/
theorem C6_square_builder :
    buildSquareGraph.startKey = ((15 : ℚ), (15 : ℚ)) ∧
      mapGet buildSquareGraph.posMap ((15 : ℚ), (15 : ℚ)) =
        some (ofQ (width / 2), ofQ (height / 2)) ∧
      ∀ kv : K × Pt, kv ∈ buildSquareGraph.posMap →
        ∃ x y : ℚ, kv.2 = (ofQ x, ofQ y) ∧
          cellSize ≤ x ∧ x ≤ width - cellSize ∧
          cellSize ≤ y ∧ y ≤ height - cellSize := by
  refine ⟨square_start_eq, ?_, fun kv hkv => squarePosMap_bounds kv hkv⟩
  show mapGet squarePosMap _ = _
  rw [squarePosMap_get_start]
  have h1 : ofQ (width / 2) = ofQ 300 := congrArg ofQ (by norm_num [width])
  have h2 : ofQ (height / 2) = ofQ 300 := congrArg ofQ (by norm_num [height])
  rw [h1, h2]

/-- **C7.** In the graph produced by the circular-polar builder, every node
of ring 1 is directly adjacent to the centre node in both directions. -/
theorem C7_ring1_center (tp : ℕ → ℕ) (circPos : ℕ → ℕ → K) (k : K)
    (hk : k ∈ ringKeys tp circPos 1) :
    centerKey ∈ (buildCircularGraph tp circPos).adj k ∧
      k ∈ (buildCircularGraph tp circPos).adj centerKey :=
  buildCircular_ring1 tp circPos k hk

/-- **C8.** Leaf-marking is idempotent: running the leaf colorer again (with
any palette draws) leaves the whole walk state — marked set and rendered
dots included — unchanged. -/
theorem C8_leaf_marking_idempotent (adj : K → Finset K) (grid : GridType)
    (cc cc2 : K → Fin 3) (s : WalkState) :
    markAllLeaves adj grid cc (markAllLeaves adj grid cc2 s) =
      markAllLeaves adj grid cc2 s :=
  markAllLeaves_idem adj grid cc cc2 s

/-- **C9.** On walk exhaustion (empty frontier) the cycle controller
finalizes the remaining leaves and restarts in the same tick (no delay):
the tick returns exactly the fresh `pickNewGrid` state together with the
dots drawn by the finalisation; the new grid is the one named by the
uniform draw `g` (all four types are reachable), and `setup` starts the
very first cycle through the same `pickNewGrid`. -/
theorem C9_cycle_restart (tp : ℕ → ℕ) (circPos : ℕ → ℕ → K) (g : Fin 4)
    (cc : K → Fin 3) (c x : K) (s : SysState)
    (hfr : frontier s.graph.adj s.walk = []) :
    drawTick tp circPos g cc c x s =
      (pickNewGrid tp circPos g,
        (markAllLeaves s.graph.adj s.currentGrid cc s.walk).dots.drop
          s.walk.dots.length) ∧
      (pickNewGrid tp circPos g).currentGrid = gridOf g ∧
      (pickNewGrid tp circPos g).walk =
        initWalk (buildFor tp circPos (gridOf g)).startKey ∧
      setup tp circPos g = pickNewGrid tp circPos g ∧
      ∀ t : GridType, ∃ g2 : Fin 4, gridOf g2 = t := by
  refine ⟨?_, rfl, rfl, rfl, ?_⟩
  · unfold drawTick
    rw [if_pos hfr]
  · intro t
    cases t
    exacts [⟨0, rfl⟩, ⟨1, rfl⟩, ⟨2, rfl⟩, ⟨3, rfl⟩]

/-- **C10.** Once a node `k` has been leaf-marked within a cycle, it is
never again chosen as either endpoint of a later walk step of that cycle
(it cannot be in the frontier, having no unvisited neighbours, and cannot
be the new node, being visited), it stays marked, and its degree counter
stays exactly 1 for the rest of the cycle. -/
theorem C10_marked_leaf_permanent (adj : K → Finset K) (grid : GridType)
    (cc : K → Fin 3) (s : WalkState) (k : K) (l : List (K × K))
    (hinv : MarkedInv adj s) (hk : k ∈ s.deadMarked)
    (hrun : ValidRun adj grid cc s l) :
    (∀ p ∈ l, p.1 ≠ k ∧ p.2 ≠ k) ∧
      k ∈ (walkRun adj grid cc s l).deadMarked ∧
      (walkRun adj grid cc s l).linkCount k = s.linkCount k ∧
      (walkRun adj grid cc s l).linkCount k = 1 := by
  induction l generalizing s with
  | nil =>
    exact ⟨fun p hp => absurd hp (List.not_mem_nil p), hk, rfl,
      (hinv.1 k hk).1⟩
  | cons p t ih =>
    obtain ⟨hc, hx, hrest⟩ := hrun
    obtain ⟨hinv2, hmark⟩ := markedInv_step adj grid cc p.1 p.2 s hinv hc hx
    obtain ⟨hlck, hkdead⟩ := hmark k hk
    obtain ⟨hne1, hne2⟩ := marked_not_endpoint adj s p.1 p.2 k hinv hk hc hx
    obtain ⟨ha, hb, hc2, hd⟩ :=
      ih (stepDraw adj grid cc p.1 p.2 s) hinv2 hkdead hrest
    refine ⟨?_, hb, ?_, hd⟩
    · intro p2 hp2
      rcases List.mem_cons.mp hp2 with rfl | hp3
      · exact ⟨hne1, hne2⟩
      · exact ha p2 hp3
    · show (walkRun adj grid cc (stepDraw adj grid cc p.1 p.2 s) t).linkCount k
        = s.linkCount k
      rw [hc2, hlck]

/-! ## Witness fixtures: a concrete three-node path graph `(0,0)—(1,0)—(2,0)`
and a small system state, used to instantiate the hypothesised claims. -/

def adjW : K → Finset K := fun k =>
  if k = ((0 : ℚ), (0 : ℚ)) then {((1 : ℚ), (0 : ℚ))}
  else if k = ((1 : ℚ), (0 : ℚ)) then {((0 : ℚ), (0 : ℚ)), ((2 : ℚ), (0 : ℚ))}
  else if k = ((2 : ℚ), (0 : ℚ)) then {((1 : ℚ), (0 : ℚ))}
  else ∅

/-- Walk state of the path graph after one step `(0,0) → (1,0)`, with
`(0,0)` already leaf-marked. -/
def walkW : WalkState :=
  { visited := [((0 : ℚ), (0 : ℚ)), ((1 : ℚ), (0 : ℚ))]
    visitedSet := {((0 : ℚ), (0 : ℚ)), ((1 : ℚ), (0 : ℚ))}
    linkCount := fun p =>
      if p = ((0 : ℚ), (0 : ℚ)) then 1
      else if p = ((1 : ℚ), (0 : ℚ)) then 1 else 0
    deadMarked := {((0 : ℚ), (0 : ℚ))}
    edges := [(((0 : ℚ), (0 : ℚ)), ((1 : ℚ), (0 : ℚ)))]
    dots := [] }

def graphW : BuiltGraph := ⟨[], fun _ => ∅, ((0 : ℚ), (0 : ℚ))⟩

def sysW : SysState := ⟨GridType.square, graphW, initWalk ((0 : ℚ), (0 : ℚ))⟩

/-- Witness for C2 on the concrete path graph. -/
theorem C2_witness :
    ((1 : ℚ), (0 : ℚ)) ∉ (initWalk ((0 : ℚ), (0 : ℚ))).visitedSet ∧
      (stepDraw adjW GridType.square (fun _ => 0) ((0 : ℚ), (0 : ℚ))
          ((1 : ℚ), (0 : ℚ)) (initWalk ((0 : ℚ), (0 : ℚ)))).visitedSet =
        insert ((1 : ℚ), (0 : ℚ)) (initWalk ((0 : ℚ), (0 : ℚ))).visitedSet ∧
      (stepDraw adjW GridType.square (fun _ => 0) ((0 : ℚ), (0 : ℚ))
          ((1 : ℚ), (0 : ℚ)) (initWalk ((0 : ℚ), (0 : ℚ)))).visitedSet.card =
        (initWalk ((0 : ℚ), (0 : ℚ))).visitedSet.card + 1 :=
  C2_step_adds_one_node adjW GridType.square (fun _ => 0)
    ((0 : ℚ), (0 : ℚ)) ((1 : ℚ), (0 : ℚ)) (initWalk ((0 : ℚ), (0 : ℚ)))
    (by decide) (by decide)

/-- Witness for C7 at a concrete parameter instantiation. -/
theorem C7_witness :
    centerKey ∈ (buildCircularGraph (fun _ => 0)
        (fun i j => ((i : ℚ), (j : ℚ)))).adj ((1 : ℚ), (0 : ℚ)) ∧
      ((1 : ℚ), (0 : ℚ)) ∈ (buildCircularGraph (fun _ => 0)
        (fun i j => ((i : ℚ), (j : ℚ)))).adj centerKey :=
  C7_ring1_center (fun _ => 0) (fun i j => ((i : ℚ), (j : ℚ)))
    ((1 : ℚ), (0 : ℚ)) (by decide)

/-- Witness for C9 on a concrete exhausted system state. -/
theorem C9_witness :
    drawTick (fun _ => 0) (fun i j => ((i : ℚ), (j : ℚ))) 0 (fun _ => 0)
        ((0 : ℚ), (0 : ℚ)) ((0 : ℚ), (0 : ℚ)) sysW =
      (pickNewGrid (fun _ => 0) (fun i j => ((i : ℚ), (j : ℚ))) 0,
        (markAllLeaves sysW.graph.adj sysW.currentGrid (fun _ => 0)
          sysW.walk).dots.drop sysW.walk.dots.length) ∧
      (pickNewGrid (fun _ => 0) (fun i j => ((i : ℚ), (j : ℚ)))
        0).currentGrid = gridOf 0 ∧
      (pickNewGrid (fun _ => 0) (fun i j => ((i : ℚ), (j : ℚ))) 0).walk =
        initWalk (buildFor (fun _ => 0) (fun i j => ((i : ℚ), (j : ℚ)))
          (gridOf 0)).startKey ∧
      setup (fun _ => 0) (fun i j => ((i : ℚ), (j : ℚ))) 0 =
        pickNewGrid (fun _ => 0) (fun i j => ((i : ℚ), (j : ℚ))) 0 ∧
      ∀ t : GridType, ∃ g2 : Fin 4, gridOf g2 = t :=
  C9_cycle_restart (fun _ => 0) (fun i j => ((i : ℚ), (j : ℚ))) 0
    (fun _ => 0) ((0 : ℚ), (0 : ℚ)) ((0 : ℚ), (0 : ℚ)) sysW (by decide)

/-- Witness for C10 on the concrete path graph: `(0,0)` is marked, the one
remaining valid step is `(1,0) → (2,0)`, and the marked node is untouched. -/
theorem C10_witness :
    (∀ p ∈ [(((1 : ℚ), (0 : ℚ)), ((2 : ℚ), (0 : ℚ)))],
        p.1 ≠ ((0 : ℚ), (0 : ℚ)) ∧ p.2 ≠ ((0 : ℚ), (0 : ℚ))) ∧
      ((0 : ℚ), (0 : ℚ)) ∈ (walkRun adjW GridType.square (fun _ => 0) walkW
        [(((1 : ℚ), (0 : ℚ)), ((2 : ℚ), (0 : ℚ)))]).deadMarked ∧
      (walkRun adjW GridType.square (fun _ => 0) walkW
          [(((1 : ℚ), (0 : ℚ)), ((2 : ℚ), (0 : ℚ)))]).linkCount
          ((0 : ℚ), (0 : ℚ)) =
        walkW.linkCount ((0 : ℚ), (0 : ℚ)) ∧
      (walkRun adjW GridType.square (fun _ => 0) walkW
          [(((1 : ℚ), (0 : ℚ)), ((2 : ℚ), (0 : ℚ)))]).linkCount
          ((0 : ℚ), (0 : ℚ)) = 1 :=
  C10_marked_leaf_permanent adjW GridType.square (fun _ => 0) walkW
    ((0 : ℚ), (0 : ℚ)) [(((1 : ℚ), (0 : ℚ)), ((2 : ℚ), (0 : ℚ)))]
    ⟨by decide, by decide⟩ (by decide) ⟨by decide, by decide, trivial⟩

end GenLinks
